import Mathlib

/-!
Shallow embedding of the UCT Monte-Carlo tree search engine (common.py and
its parallelization variants) together with proofs about its behaviour.

Conventions of the embedding:
* Python floats (wins, visits, results) are modelled as exact rationals.
* Mutation is modelled by explicit state passing: the transposition table
  (the pool of `TreeNode`s, keyed by game state) is threaded through every
  operation; a Python `TreeNode` reference becomes a state key resolved
  through the pool, which is faithful because the engine only ever stores
  pooled nodes as children.
* `random.choice` is modelled by a stream of oracle numbers (`List Nat`);
  the chosen element is the list entry at index (oracle value mod length).
* Python loops with no structural termination argument (the selection
  descent, the rollout loop, and the recursive `traverse`) receive a fuel
  parameter; exhausted fuel yields `none`, as does any failed assertion or
  any exception, so `none` means the Python code does not return normally.
* The transcendental exploration term sqrt (2 ln parentVisits / visits) of
  the UCB formula is abstracted as a parameter `explore`; every theorem
  below holds for an arbitrary such function, and the final move selection
  multiplies it by the constant 0 exactly as the source does.
-/

set_option maxRecDepth 8000
set_option linter.unusedSectionVars false
set_option allowUnsafeReducibility true
attribute [local semireducible] Rat.add Rat.mul Rat.div Rat.inv Rat.sub Rat.neg

namespace UCTSpec

/-- Embedding of the game-state contract consumed by the engine
(common.py, class GameState): legal moves, move application (which can
fail on an assertion), terminal result from a player's viewpoint (which
can fail on an assertion), and the player who just moved.  States are
used directly as transposition keys; the spec requires the string key to
be canonical and collision-free, so this is faithful. -/
structure Game (σ μ : Type) where
  get_moves : σ → List μ
  do_move : σ → μ → Option σ
  get_result : σ → Nat → Option ℚ
  player_just_moved : σ → Nat

/-- Embedding of common.py class TreeNode: statistics plus the owned state
snapshot, the move-indexed children (stored as transposition keys of the
pooled child nodes) and the not-yet-expanded moves. -/
structure TreeNode (σ μ : Type) where
  wins : ℚ
  visits : ℚ
  state : σ
  child_nodes : List (μ × σ)
  untried_moves : List μ
deriving DecidableEq, Repr

/-- Association-list lookup on the first component, i.e. Python dict
lookup for the insertion-ordered association lists of the embedding. -/
def alookup {α β : Type} [DecidableEq α] (k : α) : List (α × β) → Option β
  | [] => none
  | e :: es => if e.1 = k then some e.2 else alookup k es

/-- The transposition table of common.py class SearchTree: a pool of
nodes keyed by their state. -/
abbrev Pool (σ μ : Type) := List (σ × TreeNode σ μ)

variable {σ μ : Type} [DecidableEq σ] [DecidableEq μ]

/-- TreeNode.__init__: zero wins, one visit, cloned state, no children,
untried moves initialized from the state's legal moves. -/
def TreeNode.init (g : Game σ μ) (s : σ) : TreeNode σ μ :=
  { wins := 0, visits := 1, state := s, child_nodes := [], untried_moves := g.get_moves s }

/-- TreeNode.value: wins / visits. -/
def TreeNode.value (n : TreeNode σ μ) : ℚ :=
  n.wins / n.visits

/-- TreeNode.ucb: value plus the exploration constant times the
exploration term; `explore` abstracts the source's
sqrt (2 * log parentVisits / visits). -/
def TreeNode.ucb (n : TreeNode σ μ) (explore : ℚ → ℚ → ℚ) (parentVisits c : ℚ) : ℚ :=
  n.value + c * explore parentVisits n.visits

/-- TreeNode.update: one additional visit, the result added to wins. -/
def TreeNode.update (n : TreeNode σ μ) (r : ℚ) : TreeNode σ μ :=
  { n with visits := n.visits + 1, wins := n.wins + r }

/-- TreeNode.add_child: remove the move from untried_moves if present
(Python list.remove drops the first occurrence) and record the child key
under the move unless the move is already a child. -/
def TreeNode.add_child (n : TreeNode σ μ) (fm : μ) (childKey : σ) : TreeNode σ μ :=
  { n with
    untried_moves := n.untried_moves.erase fm,
    child_nodes :=
      match alookup fm n.child_nodes with
      | some _ => n.child_nodes
      | none => n.child_nodes ++ [(fm, childKey)] }

/-- SearchTree.get_node: return the pooled node for the state, inserting
a freshly constructed one if the key is new. -/
def getNode (g : Game σ μ) (pool : Pool σ μ) (s : σ) : TreeNode σ μ × Pool σ μ :=
  match alookup s pool with
  | some n => (n, pool)
  | none => (TreeNode.init g s, pool ++ [(s, TreeNode.init g s)])

/-- Write-back of a mutation of the pooled node stored under a key. -/
def setNode (pool : Pool σ μ) (k : σ) (n : TreeNode σ μ) : Pool σ μ :=
  pool.map (fun e => if e.1 = k then (k, n) else e)

/-- SearchTree.size: number of entries of the transposition table. -/
def treeSize (pool : Pool σ μ) : Nat :=
  pool.length

/-- Draw the next oracle number from the stream (random.random call). -/
def takeRand : List Nat → Nat × List Nat
  | [] => (0, [])
  | r :: rs => (r, rs)

/-- random.choice on a list, driven by an oracle number. -/
def choose (l : List μ) (r : Nat) : Option μ :=
  l.get? (r % l.length)

/-- Option-valued structural mapM, used wherever the Python code performs
a sequence of fallible steps over a list. -/
def omapM {α β : Type} (f : α → Option β) : List α → Option (List β)
  | [] => some []
  | x :: xs =>
    match f x, omapM f xs with
    | some y, some ys => some (y :: ys)
    | _, _ => none

/-- Python max(items, key=f): the first list element with maximal key. -/
def selectMax {α : Type} (f : α → ℚ) (x : α) (xs : List α) : α :=
  xs.foldl (fun best y => if f best < f y then y else best) x

/-- Embedding of common.py class NimState: a chip count (an integer,
which the unchecked do_move can drive negative) and the player who just
moved. -/
structure NimState where
  chips : ℤ
  player_just_moved : Nat
deriving DecidableEq, Repr

/-- NimState.get_moves: range(1, min(4, chips + 1)). -/
def nimMoves (s : NimState) : List ℤ :=
  (List.range (min 4 (s.chips + 1) - 1).toNat).map (fun i : ℕ => (i : ℤ) + 1)

/-- NimState.do_move: asserts only that the move is at least 1, then
subtracts it from the chips and flips the player. -/
def nimDoMove (s : NimState) (m : ℤ) : Option NimState :=
  if 1 ≤ m then some { chips := s.chips - m, player_just_moved := 3 - s.player_just_moved }
  else none

/-- NimState.get_result: asserts that no chips remain, then returns 1
for the player who just moved and 0 for the other player. -/
def nimResult (s : NimState) (p : Nat) : Option ℚ :=
  if s.chips = 0 then some (if s.player_just_moved = p then 1 else 0) else none

/-- The Nim game packaged for the engine. -/
def nimGame : Game NimState ℤ :=
  { get_moves := nimMoves
    do_move := nimDoMove
    get_result := nimResult
    player_just_moved := NimState.player_just_moved }

/-- Embedding of common.py class GobangState (the fields read by the
functions the claims cite). -/
structure GobangState where
  player_just_moved : Nat
  board : List (List Nat)
  size : Nat
  inrow : Nat
  terminated : Bool
deriving DecidableEq, Repr

/-- GobangState.__init__: player 2 just moved, an empty size-by-size
board, not terminated. -/
def gobangInit (size inrow : Nat) : GobangState :=
  { player_just_moved := 2
    board := List.replicate size (List.replicate size 0)
    size := size
    inrow := inrow
    terminated := false }

/-- The position list [(x, y) for x in range(n) for y in range(n)]. -/
def positions (n : Nat) : List (Nat × Nat) :=
  (List.range n).flatMap (fun x => (List.range n).map (fun y => (x, y)))

/-- Board cell access (all reads of the engine stay in bounds). -/
def boardAt (b : List (List Nat)) (x y : Nat) : Nat :=
  (((b.get? x).getD []).get? y).getD 0

/-- GobangState.get_moves: every empty cell, unless the game has
terminated, in which case no moves remain. -/
def gobangMoves (s : GobangState) : List (Nat × Nat) :=
  if s.terminated then []
  else (positions s.size).filter (fun p => boardAt s.board p.1 p.2 = 0)

/-- GobangState.get_result: no assertion at all; 1 or 0 from the
viewpoint player on a terminated board and 0.5 otherwise, even when the
state is non-terminal. -/
def gobangResult (s : GobangState) (p : Nat) : ℚ :=
  if s.terminated then (if s.player_just_moved = p then 1 else 0) else 1 / 2

/-- Resolve one child entry (move, child key) to the pooled child node;
in the source the child reference is the pooled object itself. -/
def resolveChild (pool : Pool σ μ) (c : μ × σ) : Option (μ × σ × TreeNode σ μ) :=
  match alookup c.2 pool with
  | some n => some (c.1, c.2, n)
  | none => none

/-- SearchNode.uct_select_child: asserts the children are non-empty,
then returns the move and child key of the first child maximizing the
UCB formula with the given constant. -/
def uctSelectChild (explore : ℚ → ℚ → ℚ) (pool : Pool σ μ) (k : σ) (c : ℚ) :
    Option (μ × σ) :=
  match alookup k pool with
  | none => none
  | some node =>
    match node.child_nodes with
    | [] => none
    | ch :: chs =>
      match resolveChild pool ch, omapM (resolveChild pool) chs with
      | some rc, some rcs =>
        let best := selectMax (fun t => t.2.2.ucb explore node.visits c) rc rcs
        some (best.1, best.2.1)
      | _, _ => none

/-- The Select phase of the uct driver: while the current node is fully
expanded (no untried moves) and non-terminal (has children), descend to
the UCB-maximal child with constant 1.0, extending the path of visited
keys (head is the current node). -/
def selectLoop (explore : ℚ → ℚ → ℚ) (pool : Pool σ μ) :
    Nat → σ → List σ → Option (σ × List σ)
  | 0, _, _ => none
  | fuel + 1, k, path =>
    match alookup k pool with
    | none => none
    | some node =>
      match node.untried_moves, node.child_nodes with
      | [], _ :: _ =>
        match uctSelectChild explore pool k 1 with
        | none => none
        | some (_, ck) => selectLoop explore pool fuel ck (ck :: path)
      | _, _ => some (k, path)

/-- The Expand phase of the uct driver: when the selected node has
untried moves, pick one by the oracle, apply it to a clone of the node's
state, look the successor up in (or insert it into) the pool, and record
it as a child of the selected node; otherwise the phase is a no-op.
Returns the rollout start state, the new pool, the extended
backpropagation path and the remaining oracle stream. -/
def expandStep (g : Game σ μ) (pool : Pool σ μ) (node : TreeNode σ μ) (k : σ)
    (path : List σ) (rand : List Nat) :
    Option (σ × Pool σ μ × List σ × List Nat) :=
  match node.untried_moves with
  | [] => some (node.state, pool, path, rand)
  | m0 :: ms =>
    let rr := takeRand rand
    match choose (m0 :: ms) rr.1 with
    | none => none
    | some m =>
      match g.do_move node.state m with
      | none => none
      | some s1 =>
        let pool1 := (getNode g pool s1).2
        let pool2 := setNode pool1 k (node.add_child m s1)
        some (s1, pool2, s1 :: path, rr.2)

/-- The Rollout phase: repeatedly apply an oracle-chosen legal move
until no legal move remains, returning the terminal state. -/
def rolloutLoop (g : Game σ μ) : Nat → σ → List Nat → Option (σ × List Nat)
  | 0, _, _ => none
  | fuel + 1, s, rand =>
    match g.get_moves s with
    | [] => some (s, rand)
    | m0 :: ms =>
      let rr := takeRand rand
      match choose (m0 :: ms) rr.1 with
      | none => none
      | some m =>
        match g.do_move s m with
        | none => none
        | some s1 => rolloutLoop g fuel s1 rr.2

/-- The Backpropagate phase: walk the path from the expanded node back
to the root, updating each node with the terminal result taken from that
node's player_just_moved viewpoint. -/
def backpropagate (g : Game σ μ) (term : σ) : Pool σ μ → List σ → Option (Pool σ μ)
  | pool, [] => some pool
  | pool, k :: ks =>
    match alookup k pool with
    | none => none
    | some node =>
      match g.get_result term (g.player_just_moved node.state) with
      | none => none
      | some r => backpropagate g term (setNode pool k (node.update r)) ks

/-- One iteration of the sequential uct driver: Select, Expand, Rollout,
Backpropagate. -/
def iterate (g : Game σ μ) (explore : ℚ → ℚ → ℚ) (fuel : Nat) (rootKey : σ)
    (pool : Pool σ μ) (rand : List Nat) : Option (Pool σ μ × List Nat) :=
  match selectLoop explore pool fuel rootKey [rootKey] with
  | none => none
  | some (k, path) =>
    match alookup k pool with
    | none => none
    | some node =>
      match expandStep g pool node k path rand with
      | none => none
      | some (rstate, pool1, path1, rand1) =>
        match rolloutLoop g fuel rstate rand1 with
        | none => none
        | some (term, rand2) =>
          match backpropagate g term pool1 path1 with
          | none => none
          | some pool2 => some (pool2, rand2)

/-- The iteration loop of the uct driver: iter_max iterations. -/
def uctLoop (g : Game σ μ) (explore : ℚ → ℚ → ℚ) (fuel : Nat) (rootKey : σ) :
    Nat → Pool σ μ → List Nat → Option (Pool σ μ × List Nat)
  | 0, pool, rand => some (pool, rand)
  | n + 1, pool, rand =>
    match iterate g explore fuel rootKey pool rand with
    | none => none
    | some (pool1, rand1) => uctLoop g explore fuel rootKey n pool1 rand1

/-- The pool produced by the uct driver after inserting the root node
and running iter_max iterations. -/
def uctPool (g : Game σ μ) (explore : ℚ → ℚ → ℚ) (fuel : Nat) (rand : List Nat)
    (rootState : σ) (iterMax : Nat) (pool0 : Pool σ μ) : Option (Pool σ μ) :=
  match uctLoop g explore fuel rootState iterMax (getNode g pool0 rootState).2 rand with
  | none => none
  | some (pool1, _) => some pool1

/-- TreeNode.traverse: post-order traversal of the child graph with the
given recursion-depth fuel, collecting the keys of the visited nodes.
The source traversal carries no visited-set, so the recursion revisits
shared children and never returns on a cyclic child graph. -/
def traverseFuel (pool : Pool σ μ) : Nat → σ → Option (List σ)
  | 0, _ => none
  | fuel + 1, k =>
    let children := match alookup k pool with
      | some n => n.child_nodes
      | none => []
    match omapM (fun c => traverseFuel pool fuel c.2) children with
    | none => none
    | some ls => some (ls.flatten ++ [k])

/-- SearchTree.clean_sub_tree: collect the set of keys reachable by the
traversal from the kept subtree root, then delete every entry whose node
was not visited. -/
def cleanSubTree (pool : Pool σ μ) (fuel : Nat) (ignoredKey : σ) : Option (Pool σ μ) :=
  match traverseFuel pool fuel ignoredKey with
  | none => none
  | some ignoreSet => some (pool.filter (fun e => e.1 ∈ ignoreSet))

/-- The sequential engine entry point common.uct: optionally reuse a
supplied tree, run iter_max iterations, select the root child with
constant 0.0, prune to the chosen subtree when a tree was supplied, and
return the selected move. -/
def uct (g : Game σ μ) (explore : ℚ → ℚ → ℚ) (fuel : Nat) (rand : List Nat)
    (rootState : σ) (iterMax : Nat) (searchTree : Option (Pool σ μ)) : Option μ :=
  match uctPool g explore fuel rand rootState iterMax (searchTree.getD []) with
  | none => none
  | some pool2 =>
    match uctSelectChild explore pool2 rootState 0 with
    | none => none
    | some (m, ck) =>
      if searchTree.isSome then
        match cleanSubTree pool2 fuel ck with
        | none => none
        | some _ => some m
      else some m

/-- The joined Rollout phase of uct-leaf-parallelization.py: P
simulation threads, each rolling out an own clone of the expanded state;
the oracle stream is consumed in join order. -/
def rolloutN (g : Game σ μ) (fuel : Nat) :
    Nat → σ → List Nat → Option (List σ × List Nat)
  | 0, _, rand => some ([], rand)
  | p + 1, s, rand =>
    match rolloutLoop g fuel s rand with
    | none => none
    | some (t, rand1) =>
      match rolloutN g fuel p s rand1 with
      | none => none
      | some (ts, rand2) => some (t :: ts, rand2)

/-- The Backpropagate phase of uct-leaf-parallelization.py: at each path
node, update once with the sum of the P terminal results from that
node's player_just_moved viewpoint divided by PARALLEL_COUNT. -/
def leafBackprop (g : Game σ μ) (P : Nat) (terms : List σ) :
    Pool σ μ → List σ → Option (Pool σ μ)
  | pool, [] => some pool
  | pool, k :: ks =>
    match alookup k pool with
    | none => none
    | some node =>
      match omapM (fun t => g.get_result t (g.player_just_moved node.state)) terms with
      | none => none
      | some results =>
        leafBackprop g P terms (setNode pool k (node.update (results.sum / (P : ℚ)))) ks

/-- One iteration of uct-leaf-parallelization.py: Select and Expand as
in the sequential driver, then P joined rollouts from the single
expanded state, then the averaging backpropagation. -/
def leafIterate (g : Game σ μ) (explore : ℚ → ℚ → ℚ) (P fuel : Nat) (rootKey : σ)
    (pool : Pool σ μ) (rand : List Nat) : Option (Pool σ μ × List Nat) :=
  match selectLoop explore pool fuel rootKey [rootKey] with
  | none => none
  | some (k, path) =>
    match alookup k pool with
    | none => none
    | some node =>
      match expandStep g pool node k path rand with
      | none => none
      | some (rstate, pool1, path1, rand1) =>
        match rolloutN g fuel P rstate rand1 with
        | none => none
        | some (terms, rand2) =>
          match leafBackprop g P terms pool1 path1 with
          | none => none
          | some pool2 => some (pool2, rand2)

/-- Resolve one child entry to the pair (move, child value), as the
SearchWorker of uct-root-parallelization.py does when building its
values dictionary. -/
def resolveChildValue (pool : Pool σ μ) (c : μ × σ) : Option (μ × ℚ) :=
  match alookup c.2 pool with
  | some n => some (c.1, n.value)
  | none => none

/-- SearchWorker.run of uct-root-parallelization.py: an independent
sequential search on a fresh tree (whose pruning is overridden to a
no-op), followed by the final root selection the worker's uct call
performs, then the dictionary of root-child values and the tree size put
on the result queue. -/
def searchWorker (g : Game σ μ) (explore : ℚ → ℚ → ℚ) (fuel : Nat) (rand : List Nat)
    (rootState : σ) (iterMax : Nat) : Option (List (μ × ℚ) × Nat) :=
  match uctPool g explore fuel rand rootState iterMax [] with
  | none => none
  | some pool2 =>
    match uctSelectChild explore pool2 rootState 0 with
    | none => none
    | some _ =>
      let rootNode := (getNode g pool2 rootState).1
      match omapM (resolveChildValue pool2) rootNode.child_nodes with
      | none => none
      | some values => some (values, treeSize pool2)

/-- One step of the defaultdict(float) aggregation values[move] += value
of uct-root-parallelization.py. -/
def addValue (acc : List (μ × ℚ)) (m : μ) (v : ℚ) : List (μ × ℚ) :=
  match alookup m acc with
  | some w => acc.map (fun e => if e.1 = m then (m, w + v) else e)
  | none => acc ++ [(m, v)]

/-- The aggregation loop of uct-root-parallelization.py: sum every
worker's per-move child values into one dictionary. -/
def aggregate (rs : List (List (μ × ℚ))) : List (μ × ℚ) :=
  rs.foldl (fun acc r => r.foldl (fun a p => addValue a p.1 p.2) acc) []

/-- The root-parallel entry point uct of uct-root-parallelization.py:
every worker searches independently for iterMax / P iterations (P is the
number of workers, each with its own oracle stream), the per-move child
values are summed over the workers, and the first move with maximal sum
is returned. -/
def rootUct (g : Game σ μ) (explore : ℚ → ℚ → ℚ) (fuel : Nat)
    (rands : List (List Nat)) (rootState : σ) (iterMax : Nat) : Option μ :=
  match omapM (fun rand => searchWorker g explore fuel rand rootState (iterMax / rands.length)) rands with
  | none => none
  | some results =>
    match aggregate (results.map Prod.fst) with
    | [] => none
    | v :: vs => some (selectMax (fun p => p.2) v vs).1

/-- Outcome of the pickle.load call of uct-pickling.py: a successfully
deserialized pool, a failure raising pickle.PickleError, or a failure
raising any other exception class (for example the EOFError cPickle
raises on a truncated file). -/
inductive LoadOutcome (σ μ : Type) where
  | ok (pool : Pool σ μ)
  | pickleError
  | otherError

/-- SearchTree.__init__ of uct-pickling.py: when the persistence file
exists its deserialization outcome is consulted; only a
pickle.PickleError is swallowed into an empty pool, any other exception
propagates out of the constructor (modelled as none); without a file the
pool starts empty. -/
def picklingInit (fileExists : Bool) (o : LoadOutcome σ μ) : Option (Pool σ μ) :=
  if fileExists then
    match o with
    | LoadOutcome.ok p => some p
    | LoadOutcome.pickleError => some []
    | LoadOutcome.otherError => none
  else some []

/-! Basic lemmas about the list machinery of the embedding. -/

theorem alookup_mem {α β : Type} [DecidableEq α] {k : α} {b : β} :
    ∀ {l : List (α × β)}, alookup k l = some b → (k, b) ∈ l := by
  intro l
  induction l with
  | nil => intro h; simp [alookup] at h
  | cons e es ih =>
    intro h
    by_cases he : e.1 = k
    · simp [alookup, he] at h
      subst h
      subst he
      exact List.mem_cons_self _ _
    · simp [alookup, he] at h
      exact List.mem_cons_of_mem _ (ih h)

theorem alookup_eq_none_iff {α β : Type} [DecidableEq α] {k : α} :
    ∀ {l : List (α × β)}, alookup k l = none ↔ k ∉ l.map Prod.fst := by
  intro l
  induction l with
  | nil => simp [alookup]
  | cons e es ih =>
    by_cases he : e.1 = k
    · simp [alookup, he]
    · simp [alookup, he, ih, Ne.symm he]

theorem alookup_append_left {α β : Type} [DecidableEq α] {k : α} {b : β}
    {l1 : List (α × β)} (l2 : List (α × β)) (h : alookup k l1 = some b) :
    alookup k (l1 ++ l2) = some b := by
  induction l1 with
  | nil => simp [alookup] at h
  | cons e es ih =>
    by_cases he : e.1 = k
    · simp [alookup, he] at h ⊢; exact h
    · simp [alookup, he] at h ⊢; exact ih h

theorem alookup_append_right {α β : Type} [DecidableEq α] {k : α}
    {l1 : List (α × β)} (l2 : List (α × β)) (h : alookup k l1 = none) :
    alookup k (l1 ++ l2) = alookup k l2 := by
  induction l1 with
  | nil => simp
  | cons e es ih =>
    by_cases he : e.1 = k
    · simp [alookup, he] at h
    · simp [alookup, he] at h ⊢; exact ih h

theorem mem_setNode {pool : Pool σ μ} {k : σ} {n : TreeNode σ μ}
    {e : σ × TreeNode σ μ} (h : e ∈ setNode pool k n) : e ∈ pool ∨ e = (k, n) := by
  rcases List.mem_map.mp h with ⟨e0, he0, heq⟩
  by_cases hk : e0.1 = k
  · right; simp only [hk, if_true] at heq; exact heq.symm
  · left; simp only [hk, if_false] at heq; exact heq ▸ he0

theorem alookup_setNode_self {pool : Pool σ μ} {k : σ} {n0 n : TreeNode σ μ}
    (h : alookup k pool = some n0) :
    alookup k (setNode pool k n) = some n := by
  induction pool with
  | nil => simp [alookup] at h
  | cons e es ih =>
    by_cases he : e.1 = k
    · simp [setNode, alookup, he]
    · simp [setNode, alookup, he] at h ⊢
      exact ih h

theorem alookup_setNode_ne {pool : Pool σ μ} {k k' : σ} {n : TreeNode σ μ}
    (h : k' ≠ k) : alookup k' (setNode pool k n) = alookup k' pool := by
  induction pool with
  | nil => simp [setNode, alookup]
  | cons e es ih =>
    have hstep : setNode (e :: es) k n = (if e.1 = k then (k, n) else e) :: setNode es k n := by
      simp [setNode]
    rw [hstep]
    by_cases he : e.1 = k
    · have hne : ¬ ((k, n) : σ × TreeNode σ μ).1 = k' := fun hc => h hc.symm
      have hne2 : ¬ e.1 = k' := fun hc => h (hc.symm.trans he)
      simp only [he, if_true]
      show (if ((k, n) : σ × TreeNode σ μ).1 = k' then some ((k, n) : σ × TreeNode σ μ).2
        else alookup k' (setNode es k n)) = alookup k' (e :: es)
      simp only [alookup, hne, hne2, if_false]
      exact ih
    · simp only [he, if_false]
      show (if e.1 = k' then some e.2 else alookup k' (setNode es k n)) = alookup k' (e :: es)
      by_cases he' : e.1 = k'
      · simp [alookup, he']
      · simp only [alookup, he', if_false]
        exact ih

theorem mem_getNode {g : Game σ μ} {pool : Pool σ μ} {s : σ}
    {e : σ × TreeNode σ μ} (h : e ∈ (getNode g pool s).2) :
    e ∈ pool ∨ e = (s, TreeNode.init g s) := by
  unfold getNode at h
  cases hl : alookup s pool with
  | some n => rw [hl] at h; exact Or.inl h
  | none =>
    rw [hl] at h
    simp only [List.mem_append] at h
    rcases h with h | h
    · exact Or.inl h
    · simp at h; exact Or.inr (by simp [h])

theorem choose_mem {l : List μ} {r : Nat} {m : μ} (h : choose l r = some m) : m ∈ l :=
  List.get?_mem h

theorem omapM_mem_src {α β : Type} {f : α → Option β} :
    ∀ {l : List α} {ys : List β}, omapM f l = some ys →
      ∀ y ∈ ys, ∃ x, x ∈ l ∧ f x = some y := by
  intro l
  induction l with
  | nil => intro ys h y hy; simp [omapM] at h; subst h; simp at hy
  | cons x xs ih =>
    intro ys h y hy
    unfold omapM at h
    cases hfx : f x with
    | none => rw [hfx] at h; simp at h
    | some y0 =>
      rw [hfx] at h
      cases hrest : omapM f xs with
      | none => rw [hrest] at h; simp at h
      | some ys0 =>
        rw [hrest] at h
        simp at h
        subst h
        rcases List.mem_cons.mp hy with hy | hy
        · exact ⟨x, List.mem_cons_self _ _, hy ▸ hfx⟩
        · rcases ih hrest y hy with ⟨x0, hx0, hfx0⟩
          exact ⟨x0, List.mem_cons_of_mem _ hx0, hfx0⟩

theorem omapM_mem_tgt {α β : Type} {f : α → Option β} :
    ∀ {l : List α} {ys : List β}, omapM f l = some ys →
      ∀ x ∈ l, ∃ y, y ∈ ys ∧ f x = some y := by
  intro l
  induction l with
  | nil => intro ys h x hx; simp at hx
  | cons x0 xs ih =>
    intro ys h x hx
    unfold omapM at h
    cases hfx : f x0 with
    | none => rw [hfx] at h; simp at h
    | some y0 =>
      rw [hfx] at h
      cases hrest : omapM f xs with
      | none => rw [hrest] at h; simp at h
      | some ys0 =>
        rw [hrest] at h
        simp at h
        subst h
        rcases List.mem_cons.mp hx with hx | hx
        · exact ⟨y0, List.mem_cons_self _ _, hx ▸ hfx⟩
        · rcases ih hrest x hx with ⟨y, hy, hfy⟩
          exact ⟨y, List.mem_cons_of_mem _ hy, hfy⟩

theorem omapM_length {α β : Type} {f : α → Option β} :
    ∀ {l : List α} {ys : List β}, omapM f l = some ys → ys.length = l.length := by
  intro l
  induction l with
  | nil => intro ys h; simp [omapM] at h; simp [← h]
  | cons x xs ih =>
    intro ys h
    unfold omapM at h
    cases hfx : f x with
    | none => rw [hfx] at h; simp at h
    | some y0 =>
      rw [hfx] at h
      cases hrest : omapM f xs with
      | none => rw [hrest] at h; simp at h
      | some ys0 => rw [hrest] at h; simp at h; simp [← h, ih hrest]

theorem omapM_isSome {α β : Type} {f : α → Option β} :
    ∀ {l : List α}, (∀ x ∈ l, (f x).isSome) → (omapM f l).isSome := by
  intro l
  induction l with
  | nil => intro _; simp [omapM]
  | cons x xs ih =>
    intro h
    have hx := h x (List.mem_cons_self _ _)
    rcases Option.isSome_iff_exists.mp hx with ⟨y, hy⟩
    have hxs := ih (fun z hz => h z (List.mem_cons_of_mem _ hz))
    rcases Option.isSome_iff_exists.mp hxs with ⟨ys, hys⟩
    simp [omapM, hy, hys]

theorem selectMax_mem {α : Type} (f : α → ℚ) :
    ∀ (xs : List α) (x : α), selectMax f x xs ∈ x :: xs := by
  intro xs
  induction xs with
  | nil => intro x; simp [selectMax]
  | cons y ys ih =>
    intro x
    have hstep : selectMax f x (y :: ys) = selectMax f (if f x < f y then y else x) ys := by
      simp [selectMax]
    rw [hstep]
    by_cases hc : f x < f y
    · rw [if_pos hc]
      rcases List.mem_cons.mp (ih y) with h | h
      · rw [h]; exact List.mem_cons_of_mem _ (List.mem_cons_self _ _)
      · exact List.mem_cons_of_mem _ (List.mem_cons_of_mem _ h)
    · rw [if_neg hc]
      rcases List.mem_cons.mp (ih x) with h | h
      · rw [h]; exact List.mem_cons_self _ _
      · exact List.mem_cons_of_mem _ (List.mem_cons_of_mem _ h)

theorem le_selectMax {α : Type} (f : α → ℚ) :
    ∀ (xs : List α) (x : α), ∀ y ∈ x :: xs, f y ≤ f (selectMax f x xs) := by
  intro xs
  induction xs with
  | nil => intro x y hy; simp at hy; simp [selectMax, hy]
  | cons z zs ih =>
    intro x y hy
    have hstep : selectMax f x (z :: zs) = selectMax f (if f x < f z then z else x) zs := by
      simp [selectMax]
    rw [hstep]
    by_cases hc : f x < f z
    · rw [if_pos hc]
      have hhead : f z ≤ f (selectMax f z zs) := ih z z (List.mem_cons_self _ _)
      rcases List.mem_cons.mp hy with hy | hy
      · subst hy; exact le_trans (le_of_lt hc) hhead
      · rcases List.mem_cons.mp hy with hy | hy
        · subst hy; exact hhead
        · exact ih z y (List.mem_cons_of_mem _ hy)
    · rw [if_neg hc]
      have hhead : f x ≤ f (selectMax f x zs) := ih x x (List.mem_cons_self _ _)
      rcases List.mem_cons.mp hy with hy | hy
      · subst hy; exact hhead
      · rcases List.mem_cons.mp hy with hy | hy
        · subst hy; exact le_trans (le_of_not_lt hc) hhead
        · exact ih x y (List.mem_cons_of_mem _ hy)

/-! Claim C1: the move returned by the sequential engine is the root
child maximizing value, because the final selection runs the UCB formula
with constant 0. -/

theorem ucb_zero (n : TreeNode σ μ) (explore : ℚ → ℚ → ℚ) (pv : ℚ) :
    n.ucb explore pv 0 = n.value := by
  simp [TreeNode.ucb]

theorem resolveChild_eq {pool : Pool σ μ} {c : μ × σ} {t : μ × σ × TreeNode σ μ}
    (h : resolveChild pool c = some t) :
    t.1 = c.1 ∧ t.2.1 = c.2 ∧ alookup c.2 pool = some t.2.2 := by
  unfold resolveChild at h
  cases hl : alookup c.2 pool with
  | none => rw [hl] at h; simp at h
  | some n =>
    rw [hl] at h
    simp at h
    subst h
    exact ⟨rfl, rfl, rfl⟩

theorem uctSelectChild_zero_spec {explore : ℚ → ℚ → ℚ} {pool : Pool σ μ} {k : σ}
    {m : μ} {ck : σ} (h : uctSelectChild explore pool k 0 = some (m, ck)) :
    ∃ node, alookup k pool = some node ∧
      ∃ cnode, (m, ck) ∈ node.child_nodes ∧ alookup ck pool = some cnode ∧
        ∀ m' ck' cnode', (m', ck') ∈ node.child_nodes → alookup ck' pool = some cnode' →
          cnode'.value ≤ cnode.value := by
  unfold uctSelectChild at h
  cases hl : alookup k pool with
  | none => rw [hl] at h; simp at h
  | some node =>
  rw [hl] at h
  dsimp only at h
  refine ⟨node, rfl, ?_⟩
  cases hcs : node.child_nodes with
  | nil => rw [hcs] at h; simp at h
  | cons ch chs =>
  rw [hcs] at h
  dsimp only at h
  cases hrc : resolveChild pool ch with
  | none => rw [hrc] at h; simp at h
  | some rc =>
  cases hrcs : omapM (resolveChild pool) chs with
  | none => rw [hrc, hrcs] at h; simp at h
  | some rcs =>
  rw [hrc, hrcs] at h
  dsimp only at h
  simp only [Option.some.injEq, Prod.mk.injEq] at h
  set f : μ × σ × TreeNode σ μ → ℚ := fun t => t.2.2.ucb explore node.visits 0 with hf
  set best := selectMax f rc rcs with hbest
  have hsrc : ∀ t ∈ rc :: rcs, ∃ c, c ∈ ch :: chs ∧ resolveChild pool c = some t := by
    intro t ht
    rcases List.mem_cons.mp ht with ht | ht
    · exact ⟨ch, List.mem_cons_self _ _, ht ▸ hrc⟩
    · rcases omapM_mem_src hrcs t ht with ⟨c, hc, hct⟩
      exact ⟨c, List.mem_cons_of_mem _ hc, hct⟩
  have htgt : ∀ c ∈ ch :: chs, ∃ t, t ∈ rc :: rcs ∧ resolveChild pool c = some t := by
    intro c hc
    rcases List.mem_cons.mp hc with hc | hc
    · exact ⟨rc, List.mem_cons_self _ _, hc ▸ hrc⟩
    · rcases omapM_mem_tgt hrcs c hc with ⟨t, ht, hct⟩
      exact ⟨t, List.mem_cons_of_mem _ ht, hct⟩
  rcases hsrc best (selectMax_mem f rcs rc) with ⟨c0, hc0, hc0best⟩
  rcases resolveChild_eq hc0best with ⟨hb1, hb2, hb3⟩
  refine ⟨best.2.2, ?_, ?_, ?_⟩
  · have : (m, ck) = c0 := by
      rw [← h.1, ← h.2, hb1, hb2]
    exact this ▸ hc0
  · rw [← h.2, hb2]
    exact hb3
  · intro m' ck' cnode' hmem hlook
    rcases htgt (m', ck') hmem with ⟨t, ht, hct⟩
    have hctval : resolveChild pool (m', ck') = some (m', ck', cnode') := by
      unfold resolveChild
      rw [hlook]
    have hteq : t = (m', ck', cnode') := by
      rw [hct] at hctval
      exact Option.some.inj hctval
    have hle := le_selectMax f rcs rc t ht
    rw [← hbest] at hle
    rw [hteq] at hle
    simp only [hf, ucb_zero] at hle
    exact hle

/-- C1: for the sequential engine, whenever uct returns a move, that
move is a root child maximizing value() = wins / visits; with the
constant 0.0 of the final uct_select_child call the exploration term of
the UCB formula contributes nothing, i.e. ucb explore pv 0 = value. -/
theorem uct_returns_max_value_child (g : Game σ μ) (explore : ℚ → ℚ → ℚ) (fuel : Nat)
    (rand : List Nat) (rootState : σ) (iterMax : Nat) (searchTree : Option (Pool σ μ))
    (m : μ) (h : uct g explore fuel rand rootState iterMax searchTree = some m) :
    (∀ (n : TreeNode σ μ) (pv : ℚ), n.ucb explore pv 0 = n.value) ∧
    ∃ pool2, uctPool g explore fuel rand rootState iterMax (searchTree.getD []) = some pool2 ∧
      ∃ rootNode, alookup rootState pool2 = some rootNode ∧
        ∃ ck cnode, (m, ck) ∈ rootNode.child_nodes ∧ alookup ck pool2 = some cnode ∧
          ∀ m' ck' cnode', (m', ck') ∈ rootNode.child_nodes →
            alookup ck' pool2 = some cnode' → cnode'.value ≤ cnode.value := by
  refine ⟨fun n pv => ucb_zero n explore pv, ?_⟩
  unfold uct at h
  cases hp : uctPool g explore fuel rand rootState iterMax (searchTree.getD []) with
  | none => rw [hp] at h; simp at h
  | some pool2 =>
  rw [hp] at h
  dsimp only at h
  refine ⟨pool2, rfl, ?_⟩
  cases hsel : uctSelectChild explore pool2 rootState 0 with
  | none => rw [hsel] at h; simp at h
  | some mc =>
  rw [hsel] at h
  dsimp only at h
  have hm : mc.1 = m := by
    rcases mc with ⟨m0, ck0⟩
    by_cases hst : searchTree.isSome
    · simp only [hst, if_true] at h
      cases hcl : cleanSubTree pool2 fuel ck0 with
      | none => rw [hcl] at h; simp at h
      | some p3 => rw [hcl] at h; simp at h; exact h
    · simp only [hst, if_false] at h
      simp at h
      exact h
  rcases hmc : mc with ⟨m0, ck0⟩
  rw [hmc] at hsel hm
  rw [← hm]
  rcases uctSelectChild_zero_spec hsel with ⟨node, hnode, cnode, hmem, hlook, hmax⟩
  exact ⟨node, hnode, ck0, cnode, hmem, hlook, hmax⟩

/-- Concrete exploration function used by the executable witnesses. -/
def zeroExplore : ℚ → ℚ → ℚ := fun _ _ => 0

/-- Witness for C1: a concrete sequential search on Nim with two chips
returns the move 2, and the theorem exhibits it as the value-maximal
root child. -/
theorem uct_returns_max_value_child_witness :
    (∀ (n : TreeNode NimState ℤ) (pv : ℚ), n.ucb zeroExplore pv 0 = n.value) ∧
    ∃ pool2, uctPool nimGame zeroExplore 6 [0, 0, 0, 0, 0, 0, 0, 0]
        (NimState.mk 2 2) 2 ((none : Option (Pool NimState ℤ)).getD []) = some pool2 ∧
      ∃ rootNode, alookup (NimState.mk 2 2) pool2 = some rootNode ∧
        ∃ ck cnode, ((2 : ℤ), ck) ∈ rootNode.child_nodes ∧ alookup ck pool2 = some cnode ∧
          ∀ m' ck' cnode', (m', ck') ∈ rootNode.child_nodes →
            alookup ck' pool2 = some cnode' → cnode'.value ≤ cnode.value :=
  uct_returns_max_value_child nimGame zeroExplore 6 [0, 0, 0, 0, 0, 0, 0, 0]
    (NimState.mk 2 2) 2 none 2 (by decide)

/-! Claim C10: without iterations (fresh tree) or without legal root
moves the root node never acquires children, and the final
uct_select_child call fails its non-empty-children assertion. -/

theorem uctLoop_terminal (g : Game σ μ) (explore : ℚ → ℚ → ℚ) (fuel : Nat) (s : σ)
    (hs : g.get_moves s = []) :
    ∀ (n : Nat) (w v : ℚ) (rand : List Nat),
      uctLoop g explore fuel s n [(s, TreeNode.mk w v s [] [])] rand = none ∨
      ∃ w' v' rand2, uctLoop g explore fuel s n [(s, TreeNode.mk w v s [] [])] rand
        = some ([(s, TreeNode.mk w' v' s [] [])], rand2) := by
  intro n
  induction n with
  | zero => intro w v rand; right; exact ⟨w, v, rand, rfl⟩
  | succ n ih =>
    intro w v rand
    cases fuel with
    | zero =>
      left
      simp [uctLoop, iterate, selectLoop]
    | succ f =>
      have h1 : selectLoop explore ([(s, TreeNode.mk w v s [] [])] : Pool σ μ) (f + 1) s [s]
          = some (s, [s]) := by
        simp [selectLoop, alookup]
      have h2 : alookup s ([(s, TreeNode.mk w v s [] [])] : Pool σ μ)
          = some (TreeNode.mk w v s [] []) := by
        simp [alookup]
      have h3 : expandStep g ([(s, TreeNode.mk w v s [] [])] : Pool σ μ)
          (TreeNode.mk w v s [] []) s [s] rand
          = some (s, [(s, TreeNode.mk w v s [] [])], [s], rand) := by
        simp [expandStep]
      have h4 : rolloutLoop g (f + 1) s rand = some (s, rand) := by
        simp [rolloutLoop, hs]
      cases hres : g.get_result s (g.player_just_moved s) with
      | none =>
        left
        have h5 : backpropagate g s ([(s, TreeNode.mk w v s [] [])] : Pool σ μ) [s] = none := by
          simp [backpropagate, alookup, hres]
        simp [uctLoop, iterate, h1, h2, h3, h4, h5]
      | some r =>
        have h5 : backpropagate g s ([(s, TreeNode.mk w v s [] [])] : Pool σ μ) [s]
            = some [(s, TreeNode.mk (w + r) (v + 1) s [] [])] := by
          simp [backpropagate, alookup, hres, setNode, TreeNode.update]
        have hstep : uctLoop g explore (f + 1) s (n + 1) [(s, TreeNode.mk w v s [] [])] rand
            = uctLoop g explore (f + 1) s n [(s, TreeNode.mk (w + r) (v + 1) s [] [])] rand := by
          simp [uctLoop, iterate, h1, h2, h3, h4, h5]
        rw [hstep]
        exact ih (w + r) (v + 1) rand

/-- C10: the sequential entry point produces a move only under the
precondition of at least one iteration and a non-terminal root: with a
fresh tree and zero iterations, and likewise with a root that has no
legal moves, the root node has no children and the final
uct_select_child assertion fails (the run yields none instead of a
move). -/
theorem uct_undefined_without_precondition :
    (∀ (g : Game σ μ) (explore : ℚ → ℚ → ℚ) (fuel : Nat) (rand : List Nat) (s : σ),
      uct g explore fuel rand s 0 none = none) ∧
    (∀ (g : Game σ μ) (explore : ℚ → ℚ → ℚ) (fuel : Nat) (rand : List Nat) (s : σ) (n : Nat),
      g.get_moves s = [] → uct g explore fuel rand s n none = none) := by
  constructor
  · intro g explore fuel rand s
    simp [uct, uctPool, uctLoop, getNode, alookup, uctSelectChild, TreeNode.init]
  · intro g explore fuel rand s n hs
    have hinit : getNode g ([] : Pool σ μ) s = (TreeNode.mk 0 1 s [] [], [(s, TreeNode.mk 0 1 s [] [])]) := by
      simp [getNode, alookup, TreeNode.init, hs]
    rcases uctLoop_terminal g explore fuel s hs n 0 1 rand with hcase | ⟨w', v', rand2, hcase⟩
    · simp [uct, uctPool, hinit, hcase]
    · simp [uct, uctPool, hinit, hcase, uctSelectChild, alookup]

/-- Witness for C10: a terminal Nim position (zero chips) drives the
second component at a concrete input, and the first component needs no
hypothesis beyond concrete arguments. -/
theorem uct_undefined_without_precondition_witness :
    uct nimGame zeroExplore 6 [] (NimState.mk 0 2) 3 none = none :=
  (uct_undefined_without_precondition.2) nimGame zeroExplore 6 [] (NimState.mk 0 2) 3
    (by decide)

/-! Generic preservation of per-node invariants through the search loop:
a predicate on nodes that holds for freshly constructed nodes and is
preserved by add_child (of an untried move) and by update (of a result
the game can return) holds for every node of every pool the sequential
driver can produce. -/

def PoolAll (Q : TreeNode σ μ → Prop) (pool : Pool σ μ) : Prop :=
  ∀ e ∈ pool, Q e.2

theorem poolAll_setNode {Q : TreeNode σ μ → Prop} {pool : Pool σ μ} {k : σ}
    {n : TreeNode σ μ} (hp : PoolAll Q pool) (hn : Q n) : PoolAll Q (setNode pool k n) := by
  intro e he
  rcases mem_setNode he with he | he
  · exact hp e he
  · rw [he]
    exact hn

theorem poolAll_getNode {Q : TreeNode σ μ → Prop} {g : Game σ μ} {pool : Pool σ μ} {s : σ}
    (hp : PoolAll Q pool) (hi : Q (TreeNode.init g s)) : PoolAll Q (getNode g pool s).2 := by
  intro e he
  rcases mem_getNode he with he | he
  · exact hp e he
  · rw [he]
    exact hi

theorem poolAll_backprop {Q : TreeNode σ μ → Prop} {g : Game σ μ} {term : σ}
    (hupd : ∀ (st : σ) (p : Nat) (r : ℚ) (n : TreeNode σ μ),
      g.get_result st p = some r → Q n → Q (n.update r)) :
    ∀ (path : List σ) (pool pool' : Pool σ μ), PoolAll Q pool →
      backpropagate g term pool path = some pool' → PoolAll Q pool' := by
  intro path
  induction path with
  | nil =>
    intro pool pool' hp h
    simp [backpropagate] at h
    exact h ▸ hp
  | cons k ks ih =>
    intro pool pool' hp h
    unfold backpropagate at h
    cases hl : alookup k pool with
    | none => rw [hl] at h; simp at h
    | some node =>
      rw [hl] at h
      dsimp only at h
      cases hr : g.get_result term (g.player_just_moved node.state) with
      | none => rw [hr] at h; simp at h
      | some r =>
        rw [hr] at h
        have hq : Q node := hp (k, node) (alookup_mem hl)
        exact ih _ _ (poolAll_setNode hp (hupd term _ r node hr hq)) h

theorem poolAll_expandStep {Q : TreeNode σ μ → Prop} {g : Game σ μ} {pool : Pool σ μ}
    {node : TreeNode σ μ} {k : σ} {path : List σ} {rand : List Nat}
    {out : σ × Pool σ μ × List σ × List Nat}
    (hinit : ∀ s : σ, Q (TreeNode.init g s))
    (hadd : ∀ (n : TreeNode σ μ) (m : μ) (ck : σ), Q n → m ∈ n.untried_moves →
      Q (n.add_child m ck))
    (hp : PoolAll Q pool) (hq : Q node)
    (h : expandStep g pool node k path rand = some out) : PoolAll Q out.2.1 := by
  unfold expandStep at h
  cases hu : node.untried_moves with
  | nil =>
    rw [hu] at h
    simp at h
    rw [← h]
    exact hp
  | cons m0 ms =>
    rw [hu] at h
    dsimp only at h
    cases hch : choose (m0 :: ms) (takeRand rand).1 with
    | none => rw [hch] at h; simp at h
    | some m =>
      rw [hch] at h
      dsimp only at h
      cases hmv : g.do_move node.state m with
      | none => rw [hmv] at h; simp at h
      | some s1 =>
        rw [hmv] at h
        simp at h
        have hm : m ∈ node.untried_moves := hu ▸ choose_mem hch
        have hpool2 : PoolAll Q (setNode (getNode g pool s1).2 k (node.add_child m s1)) :=
          poolAll_setNode (poolAll_getNode hp (hinit s1)) (hadd node m s1 hq hm)
        rw [← h]
        exact hpool2

theorem poolAll_iterate {Q : TreeNode σ μ → Prop} {g : Game σ μ} {explore : ℚ → ℚ → ℚ}
    {fuel : Nat} {rootKey : σ} {pool : Pool σ μ} {rand : List Nat}
    {out : Pool σ μ × List Nat}
    (hinit : ∀ s : σ, Q (TreeNode.init g s))
    (hadd : ∀ (n : TreeNode σ μ) (m : μ) (ck : σ), Q n → m ∈ n.untried_moves →
      Q (n.add_child m ck))
    (hupd : ∀ (st : σ) (p : Nat) (r : ℚ) (n : TreeNode σ μ),
      g.get_result st p = some r → Q n → Q (n.update r))
    (hp : PoolAll Q pool)
    (h : iterate g explore fuel rootKey pool rand = some out) : PoolAll Q out.1 := by
  unfold iterate at h
  cases hsel : selectLoop explore pool fuel rootKey [rootKey] with
  | none => rw [hsel] at h; simp at h
  | some kp =>
    rw [hsel] at h
    dsimp only at h
    rcases kp with ⟨k, path⟩
    cases hl : alookup k pool with
    | none => rw [hl] at h; simp at h
    | some node =>
      rw [hl] at h
      dsimp only at h
      cases hexp : expandStep g pool node k path rand with
      | none => rw [hexp] at h; simp at h
      | some ex =>
        rw [hexp] at h
        dsimp only at h
        rcases ex with ⟨rstate, pool1, path1, rand1⟩
        cases hro : rolloutLoop g fuel rstate rand1 with
        | none => rw [hro] at h; simp at h
        | some tr =>
          rw [hro] at h
          dsimp only at h
          rcases tr with ⟨term, rand2⟩
          cases hbp : backpropagate g term pool1 path1 with
          | none => rw [hbp] at h; simp at h
          | some pool2 =>
            rw [hbp] at h
            simp at h
            have hq : Q node := hp (k, node) (alookup_mem hl)
            have hp1 : PoolAll Q pool1 :=
              poolAll_expandStep hinit hadd hp hq hexp
            have hp2 : PoolAll Q pool2 :=
              poolAll_backprop hupd path1 pool1 pool2 hp1 hbp
            rw [← h]
            exact hp2

theorem poolAll_uctLoop {Q : TreeNode σ μ → Prop} {g : Game σ μ} {explore : ℚ → ℚ → ℚ}
    {fuel : Nat} {rootKey : σ}
    (hinit : ∀ s : σ, Q (TreeNode.init g s))
    (hadd : ∀ (n : TreeNode σ μ) (m : μ) (ck : σ), Q n → m ∈ n.untried_moves →
      Q (n.add_child m ck))
    (hupd : ∀ (st : σ) (p : Nat) (r : ℚ) (n : TreeNode σ μ),
      g.get_result st p = some r → Q n → Q (n.update r)) :
    ∀ (n : Nat) (pool : Pool σ μ) (rand : List Nat) (out : Pool σ μ × List Nat),
      PoolAll Q pool → uctLoop g explore fuel rootKey n pool rand = some out →
      PoolAll Q out.1 := by
  intro n
  induction n with
  | zero =>
    intro pool rand out hp h
    simp [uctLoop] at h
    rw [← h]
    exact hp
  | succ n ih =>
    intro pool rand out hp h
    unfold uctLoop at h
    cases hit : iterate g explore fuel rootKey pool rand with
    | none => rw [hit] at h; simp at h
    | some pr =>
      rw [hit] at h
      dsimp only at h
      exact ih pr.1 pr.2 out (poolAll_iterate hinit hadd hupd hp hit) h

theorem poolAll_uctPool {Q : TreeNode σ μ → Prop} {g : Game σ μ} {explore : ℚ → ℚ → ℚ}
    {fuel : Nat} {rand : List Nat} {rootState : σ} {iterMax : Nat}
    {pool0 pool' : Pool σ μ}
    (hinit : ∀ s : σ, Q (TreeNode.init g s))
    (hadd : ∀ (n : TreeNode σ μ) (m : μ) (ck : σ), Q n → m ∈ n.untried_moves →
      Q (n.add_child m ck))
    (hupd : ∀ (st : σ) (p : Nat) (r : ℚ) (n : TreeNode σ μ),
      g.get_result st p = some r → Q n → Q (n.update r))
    (hp : PoolAll Q pool0)
    (h : uctPool g explore fuel rand rootState iterMax pool0 = some pool') :
    PoolAll Q pool' := by
  unfold uctPool at h
  cases hl : uctLoop g explore fuel rootState iterMax (getNode g pool0 rootState).2 rand with
  | none => rw [hl] at h; simp at h
  | some pr =>
    rw [hl] at h
    simp at h
    have hp1 : PoolAll Q (getNode g pool0 rootState).2 := poolAll_getNode hp (hinit rootState)
    have := poolAll_uctLoop hinit hadd hupd iterMax _ rand pr hp1 hl
    rw [← h]
    exact this

/-- The moves bookkeeping invariant of a TreeNode: untried moves and
child keys are duplicate-free, disjoint, and together exactly the legal
moves of the node's state. -/
def MovesInv (g : Game σ μ) (n : TreeNode σ μ) : Prop :=
  n.untried_moves.Nodup ∧ (n.child_nodes.map Prod.fst).Nodup ∧
  (∀ m ∈ n.untried_moves, m ∉ n.child_nodes.map Prod.fst) ∧
  (∀ m : μ, (m ∈ n.untried_moves ∨ m ∈ n.child_nodes.map Prod.fst) ↔ m ∈ g.get_moves n.state)

/-- The statistics invariant of a TreeNode. -/
def StatsInv (n : TreeNode σ μ) : Prop :=
  1 ≤ n.visits ∧ 0 ≤ n.wins ∧ n.wins ≤ n.visits

theorem movesInv_init {g : Game σ μ} {s : σ} (hnd : (g.get_moves s).Nodup) :
    MovesInv g (TreeNode.init g s) := by
  refine ⟨hnd, by simp [TreeNode.init], ?_, ?_⟩
  · intro m hm
    simp [TreeNode.init]
  · intro m
    simp [TreeNode.init]

theorem movesInv_update {g : Game σ μ} {n : TreeNode σ μ} {r : ℚ} (hq : MovesInv g n) :
    MovesInv g (n.update r) :=
  hq

theorem movesInv_add_child {g : Game σ μ} {n : TreeNode σ μ} {m : μ} {ck : σ}
    (hq : MovesInv g n) (hm : m ∈ n.untried_moves) : MovesInv g (n.add_child m ck) := by
  rcases hq with ⟨hnd, hknd, hdisj, hunion⟩
  have hmk : m ∉ n.child_nodes.map Prod.fst := hdisj m hm
  have hlk : alookup m n.child_nodes = none := alookup_eq_none_iff.mpr hmk
  have hachild : (n.add_child m ck).child_nodes = n.child_nodes ++ [(m, ck)] := by
    simp [TreeNode.add_child, hlk]
  have hauntried : (n.add_child m ck).untried_moves = n.untried_moves.erase m := rfl
  have hastate : (n.add_child m ck).state = n.state := rfl
  have hkeys : (n.add_child m ck).child_nodes.map Prod.fst = n.child_nodes.map Prod.fst ++ [m] := by
    rw [hachild]; simp
  refine ⟨?_, ?_, ?_, ?_⟩
  · rw [hauntried]
    exact hnd.erase m
  · rw [hkeys]
    refine hknd.append (List.nodup_singleton m) ?_
    intro a ha hb
    simp at hb
    exact hmk (hb ▸ ha)
  · intro m' hm'
    rw [hauntried] at hm'
    rw [hkeys]
    rcases (hnd.mem_erase_iff).mp hm' with ⟨hne, hmem⟩
    intro hcontra
    rcases List.mem_append.mp hcontra with hc | hc
    · exact hdisj m' hmem hc
    · simp at hc
      exact hne hc
  · intro m'
    rw [hauntried, hkeys, hastate]
    constructor
    · intro hcase
      rcases hcase with hc | hc
      · exact (hunion m').mp (Or.inl ((hnd.mem_erase_iff).mp hc).2)
      · rcases List.mem_append.mp hc with hc | hc
        · exact (hunion m').mp (Or.inr hc)
        · simp at hc
          subst hc
          exact (hunion m').mp (Or.inl hm)
    · intro hmoves
      rcases (hunion m').mpr hmoves with hc | hc
      · by_cases hne : m' = m
        · subst hne
          right
          exact List.mem_append.mpr (Or.inr (by simp))
        · left
          exact (hnd.mem_erase_iff).mpr ⟨hne, hc⟩
      · right
        exact List.mem_append.mpr (Or.inl hc)

theorem statsInv_init {g : Game σ μ} (s : σ) : StatsInv (TreeNode.init g s) := by
  refine ⟨?_, ?_, ?_⟩ <;> simp [TreeNode.init]

theorem statsInv_update {n : TreeNode σ μ} {r : ℚ} (hq : StatsInv n)
    (hr0 : 0 ≤ r) (hr1 : r ≤ 1) : StatsInv (n.update r) := by
  rcases hq with ⟨h1, h2, h3⟩
  refine ⟨?_, ?_, ?_⟩
  · show (1 : ℚ) ≤ n.visits + 1
    linarith
  · show (0 : ℚ) ≤ n.wins + r
    linarith
  · show n.wins + r ≤ n.visits + 1
    linarith

theorem statsInv_add_child {n : TreeNode σ μ} {m : μ} {ck : σ} (hq : StatsInv n) :
    StatsInv (n.add_child m ck) :=
  hq

/-- C2: after the root insertion and any number of iterations of the
sequential driver starting from a pool satisfying the bookkeeping
invariant (in particular the empty pool), every TreeNode of the
resulting transposition table has untried_moves disjoint from the key
set of child_nodes, and their union is exactly the legal-move set of the
node's state. -/
theorem uct_untried_children_partition (g : Game σ μ) (explore : ℚ → ℚ → ℚ) (fuel : Nat)
    (rand : List Nat) (rootState : σ) (iterMax : Nat) (pool0 pool' : Pool σ μ)
    (hnd : ∀ s : σ, (g.get_moves s).Nodup)
    (h0 : PoolAll (MovesInv g) pool0)
    (h : uctPool g explore fuel rand rootState iterMax pool0 = some pool') :
    ∀ e ∈ pool', (∀ m ∈ e.2.untried_moves, m ∉ e.2.child_nodes.map Prod.fst) ∧
      (∀ m : μ, (m ∈ e.2.untried_moves ∨ m ∈ e.2.child_nodes.map Prod.fst) ↔
        m ∈ g.get_moves e.2.state) := by
  have hall := poolAll_uctPool (Q := MovesInv g)
    (fun s => movesInv_init (hnd s))
    (fun n m ck hq hm => movesInv_add_child hq hm)
    (fun st p r n hres hq => movesInv_update hq)
    h0 h
  intro e he
  rcases hall e he with ⟨h1, h2, h3, h4⟩
  exact ⟨h3, h4⟩

/-- C3: the statistics facts of the sequential engine: a fresh TreeNode
has visits 1 and wins 0; update adds exactly 1 to visits and the result
to wins; and when every result the game returns lies in the unit
interval, every node of every pool the driver produces satisfies
visits at least 1, wins between 0 and visits, and value between 0 and
1. -/
theorem uct_stats_invariant (g : Game σ μ) (explore : ℚ → ℚ → ℚ) (fuel : Nat)
    (rand : List Nat) (rootState : σ) (iterMax : Nat) (pool0 pool' : Pool σ μ)
    (hrange : ∀ (st : σ) (p : Nat) (r : ℚ), g.get_result st p = some r → 0 ≤ r ∧ r ≤ 1)
    (h0 : PoolAll StatsInv pool0)
    (h : uctPool g explore fuel rand rootState iterMax pool0 = some pool') :
    (∀ s : σ, (TreeNode.init g s).visits = 1 ∧ (TreeNode.init g s).wins = 0) ∧
    (∀ (n : TreeNode σ μ) (r : ℚ),
      (n.update r).visits = n.visits + 1 ∧ (n.update r).wins = n.wins + r) ∧
    ∀ e ∈ pool', 1 ≤ e.2.visits ∧ 0 ≤ e.2.wins ∧ e.2.wins ≤ e.2.visits ∧
      0 ≤ e.2.value ∧ e.2.value ≤ 1 := by
  refine ⟨fun s => ⟨rfl, rfl⟩, fun n r => ⟨rfl, rfl⟩, ?_⟩
  have hall := poolAll_uctPool (Q := StatsInv)
    (fun s => statsInv_init s)
    (fun n m ck hq hm => statsInv_add_child hq)
    (fun st p r n hres hq => statsInv_update hq (hrange st p r hres).1 (hrange st p r hres).2)
    h0 h
  intro e he
  rcases hall e he with ⟨h1, h2, h3⟩
  have hvpos : (0 : ℚ) < e.2.visits := lt_of_lt_of_le one_pos h1
  exact ⟨h1, h2, h3, div_nonneg h2 (le_of_lt hvpos), (div_le_one hvpos).mpr h3⟩

/-- Legal Nim moves are duplicate-free. -/
theorem nim_moves_nodup : ∀ s : NimState, (nimGame.get_moves s).Nodup := by
  intro s
  show (nimMoves s).Nodup
  unfold nimMoves
  have hf : Function.Injective (fun i : ℕ => (i : ℤ) + 1) := by
    intro a b hab
    simp only at hab
    omega
  exact List.Nodup.map hf (List.nodup_range _)

/-- Every result Nim returns lies in the unit interval. -/
theorem nim_result_range : ∀ (st : NimState) (p : Nat) (r : ℚ),
    nimGame.get_result st p = some r → 0 ≤ r ∧ r ≤ 1 := by
  intro st p r h
  have h' : nimResult st p = some r := h
  unfold nimResult at h'
  by_cases hc : st.chips = 0
  · rw [if_pos hc] at h'
    have hr : r = if st.player_just_moved = p then 1 else 0 := (Option.some.inj h').symm
    rw [hr]
    by_cases hp : st.player_just_moved = p
    · rw [if_pos hp]; norm_num
    · rw [if_neg hp]; norm_num
  · rw [if_neg hc] at h'
    cases h'

/-- Concrete pool produced by the witness run of the sequential engine
on Nim with two chips, two iterations. -/
def witnessPool : Pool NimState ℤ :=
  (uctPool nimGame zeroExplore 6 [0, 0, 0, 0, 0, 0, 0, 0] (NimState.mk 2 2) 2 []).getD []

/-- Witness for C2 on the concrete Nim run. -/
theorem uct_untried_children_partition_witness :
    uctPool nimGame zeroExplore 6 [0, 0, 0, 0, 0, 0, 0, 0] (NimState.mk 2 2) 2 []
      = some witnessPool ∧
    ∀ e ∈ witnessPool, (∀ m ∈ e.2.untried_moves, m ∉ e.2.child_nodes.map Prod.fst) ∧
      (∀ m : ℤ, (m ∈ e.2.untried_moves ∨ m ∈ e.2.child_nodes.map Prod.fst) ↔
        m ∈ nimGame.get_moves e.2.state) :=
  ⟨by decide,
    uct_untried_children_partition nimGame zeroExplore 6 [0, 0, 0, 0, 0, 0, 0, 0]
      (NimState.mk 2 2) 2 [] witnessPool nim_moves_nodup
      (fun e he => absurd he (List.not_mem_nil e)) (by decide)⟩

/-- Witness for C3 on the concrete Nim run. -/
theorem uct_stats_invariant_witness :
    uctPool nimGame zeroExplore 6 [0, 0, 0, 0, 0, 0, 0, 0] (NimState.mk 2 2) 2 []
      = some witnessPool ∧
    (∀ s : NimState, (TreeNode.init nimGame s).visits = 1 ∧ (TreeNode.init nimGame s).wins = 0) ∧
    (∀ (n : TreeNode NimState ℤ) (r : ℚ),
      (n.update r).visits = n.visits + 1 ∧ (n.update r).wins = n.wins + r) ∧
    ∀ e ∈ witnessPool, 1 ≤ e.2.visits ∧ 0 ≤ e.2.wins ∧ e.2.wins ≤ e.2.visits ∧
      0 ≤ e.2.value ∧ e.2.value ≤ 1 :=
  ⟨by decide,
    uct_stats_invariant nimGame zeroExplore 6 [0, 0, 0, 0, 0, 0, 0, 0]
      (NimState.mk 2 2) 2 [] witnessPool nim_result_range
      (fun e he => absurd he (List.not_mem_nil e)) (by decide)⟩

/-! Claims C6 and C7: pruning of the transposition table. -/

/-- Reachability along child links, the links being resolved through the
pool exactly as the engine stores pooled nodes as children. -/
inductive Reachable (pool : Pool σ μ) (root : σ) : σ → Prop
  | refl : Reachable pool root root
  | step (k : σ) (n : TreeNode σ μ) (c : μ × σ) :
      Reachable pool root k → alookup k pool = some n → c ∈ n.child_nodes →
      Reachable pool root c.2

theorem reachable_trans {pool : Pool σ μ} {a b c : σ}
    (hab : Reachable pool a b) (hbc : Reachable pool b c) : Reachable pool a c := by
  induction hbc with
  | refl => exact hab
  | step k n ch hk hl hc ih => exact Reachable.step k n ch ih hl hc

theorem traverseFuel_root_mem {pool : Pool σ μ} :
    ∀ {fuel : Nat} {k : σ} {vs : List σ}, traverseFuel pool fuel k = some vs → k ∈ vs := by
  intro fuel k vs h
  cases fuel with
  | zero => simp [traverseFuel] at h
  | succ f =>
    unfold traverseFuel at h
    dsimp only at h
    cases hm : omapM (fun c => traverseFuel pool f c.2)
        (match alookup k pool with | some n => n.child_nodes | none => []) with
    | none => rw [hm] at h; simp at h
    | some ls =>
      rw [hm] at h
      simp at h
      rw [← h]
      simp

theorem traverseFuel_sound {pool : Pool σ μ} :
    ∀ (fuel : Nat) (k : σ) (vs : List σ), traverseFuel pool fuel k = some vs →
      ∀ x ∈ vs, Reachable pool k x := by
  intro fuel
  induction fuel with
  | zero => intro k vs h; simp [traverseFuel] at h
  | succ f ih =>
    intro k vs h x hx
    unfold traverseFuel at h
    cases hl : alookup k pool with
    | none =>
      rw [hl] at h
      simp [omapM] at h
      rw [← h] at hx
      simp at hx
      rw [hx]
      exact Reachable.refl
    | some n =>
      rw [hl] at h
      dsimp only at h
      cases hm : omapM (fun c => traverseFuel pool f c.2) n.child_nodes with
      | none => rw [hm] at h; simp at h
      | some ls =>
        rw [hm] at h
        simp at h
        rw [← h] at hx
        rcases List.mem_append.mp hx with hx | hx
        · rcases List.mem_flatten.mp hx with ⟨l, hlmem, hxl⟩
          rcases omapM_mem_src hm l hlmem with ⟨c, hc, hcl⟩
          have hreach : Reachable pool k c.2 :=
            Reachable.step k n c Reachable.refl hl hc
          exact reachable_trans hreach (ih c.2 l hcl x hxl)
        · simp at hx
          rw [hx]
          exact Reachable.refl

theorem traverseFuel_closed {pool : Pool σ μ} :
    ∀ (fuel : Nat) (k : σ) (vs : List σ), traverseFuel pool fuel k = some vs →
      ∀ x ∈ vs, ∀ (n : TreeNode σ μ), alookup x pool = some n →
        ∀ c ∈ n.child_nodes, c.2 ∈ vs := by
  intro fuel
  induction fuel with
  | zero => intro k vs h; simp [traverseFuel] at h
  | succ f ih =>
    intro k vs h x hx n hn c hc
    unfold traverseFuel at h
    cases hl : alookup k pool with
    | none =>
      rw [hl] at h
      simp [omapM] at h
      rw [← h] at hx
      simp at hx
      rw [hx] at hn
      rw [hn] at hl
      cases hl
    | some node =>
      rw [hl] at h
      dsimp only at h
      cases hm : omapM (fun c => traverseFuel pool f c.2) node.child_nodes with
      | none => rw [hm] at h; simp at h
      | some ls =>
        rw [hm] at h
        simp at h
        rw [← h] at hx ⊢
        rcases List.mem_append.mp hx with hx | hx
        · rcases List.mem_flatten.mp hx with ⟨l, hlmem, hxl⟩
          rcases omapM_mem_src hm l hlmem with ⟨c0, hc0, hc0l⟩
          have := ih c0.2 l hc0l x hxl n hn c hc
          exact List.mem_append.mpr (Or.inl (List.mem_flatten.mpr ⟨l, hlmem, this⟩))
        · simp at hx
          rw [hx] at hn
          have hnode : n = node := Option.some.inj (hn ▸ hl)
          rcases omapM_mem_tgt hm c (hnode ▸ hc) with ⟨l, hlmem, hcl⟩
          have : c.2 ∈ l := traverseFuel_root_mem hcl
          exact List.mem_append.mpr (Or.inl (List.mem_flatten.mpr ⟨l, hlmem, this⟩))

theorem traverseFuel_complete {pool : Pool σ μ} {fuel : Nat} {root : σ} {vs : List σ}
    (h : traverseFuel pool fuel root = some vs) :
    ∀ x, Reachable pool root x → x ∈ vs := by
  intro x hx
  induction hx with
  | refl => exact traverseFuel_root_mem h
  | step k n c hk hl hc ih => exact traverseFuel_closed fuel root vs h k ih n hl c hc

theorem traverseFuel_total {pool : Pool σ μ} (rank : σ → Nat)
    (hrank : ∀ e ∈ pool, ∀ c ∈ e.2.child_nodes, rank c.2 < rank e.1) :
    ∀ (fuel : Nat) (k : σ), rank k < fuel → (traverseFuel pool fuel k).isSome := by
  intro fuel
  induction fuel with
  | zero => intro k h; exact absurd h (Nat.not_lt_zero _)
  | succ f ih =>
    intro k hk
    unfold traverseFuel
    cases hl : alookup k pool with
    | none => simp [omapM]
    | some n =>
      dsimp only
      have hchild : ∀ c ∈ n.child_nodes, (traverseFuel pool f c.2).isSome := by
        intro c hc
        apply ih
        have h2 : rank c.2 < rank k := hrank (k, n) (alookup_mem hl) c hc
        omega
      rcases Option.isSome_iff_exists.mp (omapM_isSome hchild) with ⟨ls, hls⟩
      simp [hls]

theorem cleanSubTree_filter {pool pool' : Pool σ μ} {fuel : Nat} {root : σ}
    (h : cleanSubTree pool fuel root = some pool') :
    ∀ e, e ∈ pool' ↔ e ∈ pool ∧ Reachable pool root e.1 := by
  unfold cleanSubTree at h
  cases ht : traverseFuel pool fuel root with
  | none => rw [ht] at h; simp at h
  | some vs =>
    rw [ht] at h
    simp at h
    intro e
    rw [← h, List.mem_filter]
    constructor
    · rintro ⟨he, hv⟩
      exact ⟨he, traverseFuel_sound fuel root vs ht e.1 (by simpa using hv)⟩
    · rintro ⟨he, hr⟩
      exact ⟨he, by simpa using traverseFuel_complete ht e.1 hr⟩

/-- C6: for a transposition table whose child links form an acyclic
graph (witnessed by a rank that decreases along every child link),
clean_sub_tree with recursion depth above the root's rank succeeds and
the surviving table holds exactly the entries whose node is reachable
from the kept subtree root by transitive traversal of child links
(including that root itself, by Reachable.refl). -/
theorem clean_sub_tree_keeps_reachable (pool : Pool σ μ) (rank : σ → Nat)
    (hrank : ∀ e ∈ pool, ∀ c ∈ e.2.child_nodes, rank c.2 < rank e.1)
    (root : σ) (fuel : Nat) (hfuel : rank root < fuel) :
    ∃ pool', cleanSubTree pool fuel root = some pool' ∧
      ∀ e, e ∈ pool' ↔ e ∈ pool ∧ Reachable pool root e.1 := by
  rcases Option.isSome_iff_exists.mp (traverseFuel_total rank hrank fuel root hfuel)
    with ⟨vs, hvs⟩
  have hclean : cleanSubTree pool fuel root = some (pool.filter (fun e => e.1 ∈ vs)) := by
    simp [cleanSubTree, hvs]
  exact ⟨pool.filter (fun e => e.1 ∈ vs), hclean, cleanSubTree_filter hclean⟩

/-- Concrete acyclic table for the C6 witness: the root 0 has the single
child 1, and entry 2 is unreachable. -/
def prunePool : Pool ℕ ℕ :=
  [(0, TreeNode.mk 0 1 0 [(7, 1)] []), (1, TreeNode.mk 0 1 1 [] []),
    (2, TreeNode.mk 0 1 2 [] [])]

/-- Witness for C6: pruning the concrete table keeps exactly the
reachable entries. -/
theorem clean_sub_tree_keeps_reachable_witness :
    ∃ pool', cleanSubTree prunePool 2 0 = some pool' ∧
      ∀ e, e ∈ pool' ↔ e ∈ prunePool ∧ Reachable prunePool 0 e.1 :=
  clean_sub_tree_keeps_reachable prunePool (fun k => if k = 0 then 1 else 0)
    (by decide) 0 2 (by decide)

/-- A two-node transposition table whose TreeNode child links form a
cycle: 0 is a child of 1 and 1 is a child of 0. -/
def cyclicPool : Pool ℕ ℕ :=
  [(0, TreeNode.mk 0 1 0 [(5, 1)] []), (1, TreeNode.mk 0 1 1 [(5, 0)] [])]

/-- Divergence of pruning from a key: no recursion depth makes the
visited-set-free traversal of clean_sub_tree return. -/
def CleanDiverges (pool : Pool σ μ) (k : σ) : Prop :=
  ∀ fuel : Nat, cleanSubTree pool fuel k = none

theorem cyclic_traverse_none : ∀ fuel : Nat,
    traverseFuel cyclicPool fuel 0 = none ∧ traverseFuel cyclicPool fuel 1 = none := by
  intro fuel
  induction fuel with
  | zero => exact ⟨rfl, rfl⟩
  | succ f ih =>
    have h0 : alookup 0 cyclicPool = some (TreeNode.mk 0 1 0 [(5, 1)] []) := rfl
    have h1 : alookup 1 cyclicPool = some (TreeNode.mk 0 1 1 [(5, 0)] []) := rfl
    constructor
    · unfold traverseFuel
      simp [h0, omapM, ih.2]
    · unfold traverseFuel
      simp [h1, omapM, ih.1]

/-- Counterexample to C7: on the concrete cyclic table the traversal of
clean_sub_tree recurses forever (no recursion depth returns), because
TreeNode.traverse carries no visited-set. -/
theorem clean_sub_tree_cyclic_diverges : CleanDiverges cyclicPool 0 := by
  intro fuel
  unfold cleanSubTree
  rw [(cyclic_traverse_none fuel).1]

/-- C7 amended: the reachability traversal of clean_sub_tree has no
visited-set; it terminates whenever the child links are acyclic (a rank
decreasing along child links bounds the recursion depth), but on a
cyclic child graph it never returns. -/
theorem traverse_terminates_on_acyclic (pool : Pool σ μ) (rank : σ → Nat)
    (hrank : ∀ e ∈ pool, ∀ c ∈ e.2.child_nodes, rank c.2 < rank e.1)
    (root : σ) (fuel : Nat) (hfuel : rank root < fuel) :
    (traverseFuel pool fuel root).isSome ∧ (cleanSubTree pool fuel root).isSome := by
  have ht := traverseFuel_total rank hrank fuel root hfuel
  refine ⟨ht, ?_⟩
  rcases Option.isSome_iff_exists.mp ht with ⟨vs, hvs⟩
  simp [cleanSubTree, hvs]

/-- Concrete acyclic chain for the C7 witness. -/
def chainPool : Pool ℕ ℕ :=
  [(0, TreeNode.mk 0 1 0 [(3, 1)] []), (1, TreeNode.mk 0 1 1 [] [])]

/-- Witness for the amended C7 on the concrete acyclic chain. -/
theorem traverse_terminates_on_acyclic_witness :
    (traverseFuel chainPool 3 0).isSome ∧ (cleanSubTree chainPool 3 0).isSome :=
  traverse_terminates_on_acyclic chainPool (fun k => if k = 0 then 1 else 0)
    (by decide) 0 3 (by decide)

/-! Claim C8: persistence load failure. -/

/-- Counterexample to C8: a deserialization failure raising an exception
class other than pickle.PickleError (for example the EOFError cPickle
raises on a truncated file) propagates out of the constructor instead of
yielding an empty tree, because the except clause names only
pickle.PickleError. -/
theorem pickling_other_error_propagates :
    picklingInit (σ := Bool) (μ := Bool) true LoadOutcome.otherError = none := rfl

/-- C8 amended: with an existing persistence file, a deserialization
failure raising pickle.PickleError is swallowed and the tree starts
empty (size 0); a successful load installs the loaded pool; a failure of
any other exception class propagates out of the constructor. Without a
file the tree also starts empty. -/
theorem pickling_init_spec :
    ∀ (p : Pool σ μ) (o : LoadOutcome σ μ),
      picklingInit false o = some [] ∧
      picklingInit true (LoadOutcome.pickleError : LoadOutcome σ μ) = some [] ∧
      (picklingInit true (LoadOutcome.pickleError : LoadOutcome σ μ)).map treeSize = some 0 ∧
      picklingInit true (LoadOutcome.ok p) = some p ∧
      picklingInit true (LoadOutcome.otherError : LoadOutcome σ μ) = none := by
  intro p o
  exact ⟨rfl, rfl, rfl, rfl, rfl⟩

/-- Witness for the amended C8 at a concrete pool and outcome. -/
theorem pickling_init_spec_witness :
    picklingInit false (LoadOutcome.pickleError : LoadOutcome Bool Bool) = some [] ∧
    picklingInit true (LoadOutcome.pickleError : LoadOutcome Bool Bool) = some [] ∧
    (picklingInit true (LoadOutcome.pickleError : LoadOutcome Bool Bool)).map treeSize
      = some 0 ∧
    picklingInit true (LoadOutcome.ok ([] : Pool Bool Bool)) = some [] ∧
    picklingInit true (LoadOutcome.otherError : LoadOutcome Bool Bool) = none :=
  pickling_init_spec ([] : Pool Bool Bool) LoadOutcome.pickleError

/-! Claim C9: contract violations in the game implementations. -/

/-- Counterexample to C9: the move 2 is illegal in Nim with one chip
(the legal moves are exactly [1]), yet do_move raises nothing and
silently corrupts the state to a negative chip count. -/
theorem nim_illegal_move_absorbed :
    (2 : ℤ) ∉ nimMoves (NimState.mk 1 2) ∧
    nimDoMove (NimState.mk 1 2) 2 = some (NimState.mk (-1) 1) := by
  exact ⟨by decide, by decide⟩

/-- C9 amended: NimState.do_move asserts only move ≥ 1, so every move of
at least 1 — legal or not — is applied silently; a move below 1 does
fail. NimState.get_result does fail on every non-terminal state.
GobangState.get_result never fails: on a non-terminal state (one with
legal moves remaining) it silently returns 0.5. -/
theorem contract_violation_spec :
    (∀ (s : NimState) (m : ℤ), nimDoMove s m = none ↔ m < 1) ∧
    (∀ (s : NimState) (m : ℤ), 1 ≤ m →
      nimDoMove s m = some (NimState.mk (s.chips - m) (3 - s.player_just_moved))) ∧
    (∀ (s : NimState) (p : Nat), s.chips ≠ 0 → nimResult s p = none) ∧
    (∀ (s : GobangState) (p : Nat), gobangMoves s ≠ [] → gobangResult s p = 1 / 2) := by
  refine ⟨?_, ?_, ?_, ?_⟩
  · intro s m
    unfold nimDoMove
    by_cases h : 1 ≤ m
    · rw [if_pos h]
      simp
      omega
    · rw [if_neg h]
      simp
      omega
  · intro s m h
    simp [nimDoMove, h]
  · intro s p h
    simp [nimResult, h]
  · intro s p h
    have hterm : s.terminated = false := by
      cases hb : s.terminated
      · rfl
      · exact absurd (by simp [gobangMoves, hb]) h
    simp [gobangResult, hterm]

/-- Witness for the amended C9 at concrete inputs: an over-drawing Nim
move is absorbed, Nim's result on a non-terminal state fails, and a
fresh Gobang board is non-terminal yet get_result returns 0.5. -/
theorem contract_violation_spec_witness :
    nimDoMove (NimState.mk 5 2) 7 = some (NimState.mk (-2) 1) ∧
    nimResult (NimState.mk 5 2) 1 = none ∧
    gobangMoves (gobangInit 8 5) ≠ [] ∧
    gobangResult (gobangInit 8 5) 1 = 1 / 2 :=
  ⟨contract_violation_spec.2.1 (NimState.mk 5 2) 7 (by decide),
   contract_violation_spec.2.2.1 (NimState.mk 5 2) 1 (by decide),
   by decide,
   contract_violation_spec.2.2.2 (gobangInit 8 5) 1 (by decide)⟩

/-! Claim C4: the leaf-parallel variant. -/

theorem rolloutN_length {g : Game σ μ} {fuel : Nat} :
    ∀ (p : Nat) (s : σ) (rand : List Nat) (out : List σ × List Nat),
      rolloutN g fuel p s rand = some out → out.1.length = p := by
  intro p
  induction p with
  | zero =>
    intro s rand out h
    simp [rolloutN] at h
    rw [← h]
    rfl
  | succ p ih =>
    intro s rand out h
    unfold rolloutN at h
    cases h1 : rolloutLoop g fuel s rand with
    | none => rw [h1] at h; simp at h
    | some tr =>
      rw [h1] at h
      dsimp only at h
      rcases tr with ⟨t, rand1⟩
      cases h2 : rolloutN g fuel p s rand1 with
      | none => rw [h2] at h; simp at h
      | some tsr =>
        rw [h2] at h
        simp at h
        rw [← h]
        simp [ih s rand1 tsr h2]

theorem leafBackprop_spec {g : Game σ μ} {P : Nat} {terms : List σ} :
    ∀ (path : List σ) (pool pool' : Pool σ μ), path.Nodup →
      leafBackprop g P terms pool path = some pool' →
      (∀ (k : σ) (n : TreeNode σ μ), k ∈ path → alookup k pool = some n →
        ∃ results, omapM (fun t => g.get_result t (g.player_just_moved n.state)) terms
            = some results ∧
          alookup k pool' = some (n.update (results.sum / (P : ℚ)))) ∧
      (∀ k : σ, k ∉ path → alookup k pool' = alookup k pool) := by
  intro path
  induction path with
  | nil =>
    intro pool pool' hnd h
    simp [leafBackprop] at h
    rw [← h]
    exact ⟨fun k n hk => absurd hk (List.not_mem_nil k), fun k hk => rfl⟩
  | cons k0 ks ih =>
    intro pool pool' hnd h
    unfold leafBackprop at h
    cases hl : alookup k0 pool with
    | none => rw [hl] at h; simp at h
    | some node =>
      rw [hl] at h
      dsimp only at h
      cases hres : omapM (fun t => g.get_result t (g.player_just_moved node.state)) terms with
      | none => rw [hres] at h; simp at h
      | some results =>
        rw [hres] at h
        dsimp only at h
        have hnd2 : ks.Nodup := (List.nodup_cons.mp hnd).2
        have hk0 : k0 ∉ ks := (List.nodup_cons.mp hnd).1
        rcases ih _ pool' hnd2 h with ⟨ihin, ihout⟩
        constructor
        · intro k n hk hkn
          rcases List.mem_cons.mp hk with hk | hk
          · have hkn0 : alookup k0 pool = some n := by
              rw [← hk]
              exact hkn
            have hn : n = node := by
              rw [hkn0] at hl
              exact Option.some.inj hl
            subst hn
            refine ⟨results, hres, ?_⟩
            rw [hk, ihout k0 hk0]
            exact alookup_setNode_self hkn0
          · have hne : k ≠ k0 := fun hc => hk0 (hc ▸ hk)
            have hpool1 : alookup k (setNode pool k0 (node.update (results.sum / (P : ℚ))))
                = some n := by
              rw [alookup_setNode_ne hne]
              exact hkn
            exact ihin k n hk hpool1
        · intro k hk
          have hne : k ≠ k0 := fun hc => hk (hc ▸ List.mem_cons_self _ _)
          have hks : k ∉ ks := fun hc => hk (List.mem_cons_of_mem _ hc)
          rw [ihout k hks, alookup_setNode_ne hne]

/-- C4: in the leaf-parallel variant an iteration runs exactly P =
PARALLEL_COUNT joined rollouts from the single expanded state (rolloutN
yields P terminal states), and the backpropagation then updates every
node on the path from the expanded node to the root exactly once,
adding exactly 1 (not P) to visits and the arithmetic mean of the P
terminal results — each taken from that node's player_just_moved
viewpoint — to wins; every node off the path is untouched. -/
theorem leaf_parallel_mean_backprop (g : Game σ μ) (P : Nat) (terms : List σ)
    (hP : terms.length = P) :
    (∀ (fuel : Nat) (s : σ) (rand : List Nat) (out : List σ × List Nat),
      rolloutN g fuel P s rand = some out → out.1.length = P) ∧
    (∀ (pool pool' : Pool σ μ) (path : List σ), path.Nodup →
      leafBackprop g P terms pool path = some pool' →
      (∀ (k : σ) (n : TreeNode σ μ), k ∈ path → alookup k pool = some n →
        ∃ results, omapM (fun t => g.get_result t (g.player_just_moved n.state)) terms
            = some results ∧
          results.length = P ∧
          alookup k pool' = some (n.update (results.sum / (P : ℚ))) ∧
          (n.update (results.sum / (P : ℚ))).visits = n.visits + 1 ∧
          (n.update (results.sum / (P : ℚ))).wins = n.wins + results.sum / (P : ℚ)) ∧
      (∀ k : σ, k ∉ path → alookup k pool' = alookup k pool)) := by
  constructor
  · intro fuel s rand out h
    exact rolloutN_length P s rand out h
  · intro pool pool' path hnd h
    rcases leafBackprop_spec path pool pool' hnd h with ⟨hin, hout⟩
    refine ⟨?_, hout⟩
    intro k n hk hkn
    rcases hin k n hk hkn with ⟨results, hres, hlook⟩
    exact ⟨results, hres, (omapM_length hres).trans hP, hlook, rfl, rfl⟩

/-- Witness for C4: two terminal Nim states as joined rollout results,
so P = 2 and the hypothesis is discharged at a concrete input. -/
theorem leaf_parallel_mean_backprop_witness :
    ([NimState.mk 0 1, NimState.mk 0 2].length = 2) ∧
    ((∀ (fuel : Nat) (s : NimState) (rand : List Nat) (out : List NimState × List Nat),
      rolloutN nimGame fuel 2 s rand = some out → out.1.length = 2) ∧
    (∀ (pool pool' : Pool NimState ℤ) (path : List NimState), path.Nodup →
      leafBackprop nimGame 2 [NimState.mk 0 1, NimState.mk 0 2] pool path = some pool' →
      (∀ (k : NimState) (n : TreeNode NimState ℤ), k ∈ path → alookup k pool = some n →
        ∃ results, omapM (fun t => nimGame.get_result t (nimGame.player_just_moved n.state))
            [NimState.mk 0 1, NimState.mk 0 2] = some results ∧
          results.length = 2 ∧
          alookup k pool' = some (n.update (results.sum / (2 : ℚ))) ∧
          (n.update (results.sum / (2 : ℚ))).visits = n.visits + 1 ∧
          (n.update (results.sum / (2 : ℚ))).wins = n.wins + results.sum / (2 : ℚ)) ∧
      (∀ k : NimState, k ∉ path → alookup k pool' = alookup k pool))) :=
  ⟨by decide,
    leaf_parallel_mean_backprop nimGame 2 [NimState.mk 0 1, NimState.mk 0 2] (by decide)⟩

/-! Claim C5: the root-parallel variant.  The lemmas below describe the
defaultdict(float) aggregation values[move] += value. -/

/-- The claim's per-move sum over the workers, a worker that never
explored the move contributing 0. -/
def sumValues (rs : List (List (μ × ℚ))) (m : μ) : ℚ :=
  (rs.map (fun r => (alookup m r).getD 0)).sum

/-- All stored values of a dictionary are nonnegative. -/
def ValuesNonneg (l : List (μ × ℚ)) : Prop :=
  ∀ e ∈ l, 0 ≤ e.2

theorem alookup_mapValue_self {l : List (μ × ℚ)} {k : μ} {b0 b : ℚ}
    (h : alookup k l = some b0) :
    alookup k (l.map (fun e => if e.1 = k then (k, b) else e)) = some b := by
  induction l with
  | nil => simp [alookup] at h
  | cons e es ih =>
    by_cases he : e.1 = k
    · simp [alookup, he]
    · simp [alookup, he] at h ⊢
      exact ih h

theorem alookup_mapValue_ne {l : List (μ × ℚ)} {k k' : μ} {b : ℚ} (h : k' ≠ k) :
    alookup k' (l.map (fun e => if e.1 = k then (k, b) else e)) = alookup k' l := by
  induction l with
  | nil => simp [alookup]
  | cons e es ih =>
    have hstep : (e :: es).map (fun e => if e.1 = k then (k, b) else e)
        = (if e.1 = k then (k, b) else e) :: es.map (fun e => if e.1 = k then (k, b) else e) := by
      simp
    rw [hstep]
    by_cases he : e.1 = k
    · have hne : ¬ ((k, b) : μ × ℚ).1 = k' := fun hc => h hc.symm
      have hne2 : ¬ e.1 = k' := fun hc => h (hc.symm.trans he)
      simp only [he, if_true]
      show (if ((k, b) : μ × ℚ).1 = k' then some ((k, b) : μ × ℚ).2
        else alookup k' (es.map (fun e => if e.1 = k then (k, b) else e))) = alookup k' (e :: es)
      simp only [alookup, hne, hne2, if_false]
      exact ih
    · simp only [he, if_false]
      show (if e.1 = k' then some e.2
        else alookup k' (es.map (fun e => if e.1 = k then (k, b) else e))) = alookup k' (e :: es)
      by_cases he' : e.1 = k'
      · simp [alookup, he']
      · simp only [alookup, he', if_false]
        exact ih

theorem alookup_addValue (acc : List (μ × ℚ)) (m : μ) (v : ℚ) (m' : μ) :
    alookup m' (addValue acc m v) =
      if m' = m then some ((alookup m acc).getD 0 + v) else alookup m' acc := by
  unfold addValue
  cases hl : alookup m acc with
  | some w =>
    by_cases hm : m' = m
    · subst hm
      rw [if_pos rfl]
      dsimp only
      simp only [Option.getD_some]
      exact alookup_mapValue_self hl
    · rw [if_neg hm]
      dsimp only
      exact alookup_mapValue_ne hm
  | none =>
    by_cases hm : m' = m
    · subst hm
      rw [if_pos rfl]
      dsimp only
      simp only [Option.getD_none]
      rw [alookup_append_right _ hl]
      simp [alookup]
    · rw [if_neg hm]
      dsimp only
      cases hl' : alookup m' acc with
      | some w' => exact alookup_append_left _ hl'
      | none =>
        rw [alookup_append_right _ hl']
        have hmm : ¬ m = m' := fun hc => hm hc.symm
        simp [alookup, hmm]

theorem alookup_foldl_addValue (r : List (μ × ℚ)) :
    ∀ (acc : List (μ × ℚ)), (r.map Prod.fst).Nodup → ∀ m' : μ,
      (alookup m' (r.foldl (fun a p => addValue a p.1 p.2) acc)).getD 0
        = (alookup m' acc).getD 0 + (alookup m' r).getD 0 := by
  induction r with
  | nil =>
    intro acc hnd m'
    simp [alookup]
  | cons p rest ih =>
    intro acc hnd m'
    have hnd2 : (rest.map Prod.fst).Nodup := (List.nodup_cons.mp (by simpa using hnd)).2
    have hp : p.1 ∉ rest.map Prod.fst := (List.nodup_cons.mp (by simpa using hnd)).1
    rw [List.foldl_cons, ih (addValue acc p.1 p.2) hnd2 m']
    by_cases hm : m' = p.1
    · rw [alookup_addValue, if_pos hm]
      have hrest : alookup m' rest = none := by
        rw [hm]
        exact alookup_eq_none_iff.mpr hp
      have hpm : p.1 = m' := hm.symm
      have hcons : alookup m' (p :: rest) = some p.2 := by
        simp [alookup, hpm]
      rw [hrest, hcons, hm]
      simp
    · rw [alookup_addValue, if_neg hm]
      have hpm : ¬ p.1 = m' := fun hc => hm hc.symm
      have hcons : alookup m' (p :: rest) = alookup m' rest := by
        simp [alookup, hpm]
      rw [hcons]

theorem alookup_foldl_aggregate :
    ∀ (rs : List (List (μ × ℚ))) (acc : List (μ × ℚ)),
      (∀ r ∈ rs, (r.map Prod.fst).Nodup) → ∀ m' : μ,
      (alookup m' (rs.foldl (fun acc r => r.foldl (fun a p => addValue a p.1 p.2) acc) acc)).getD 0
        = (alookup m' acc).getD 0 + sumValues rs m' := by
  intro rs
  induction rs with
  | nil =>
    intro acc hnd m'
    simp [sumValues]
  | cons r rest ih =>
    intro acc hnd m'
    rw [List.foldl_cons]
    rw [ih _ (fun r2 h2 => hnd r2 (List.mem_cons_of_mem _ h2)) m']
    rw [alookup_foldl_addValue r acc (hnd r (List.mem_cons_self _ _)) m']
    simp [sumValues]
    ring

theorem alookup_aggregate (rs : List (List (μ × ℚ)))
    (hnd : ∀ r ∈ rs, (r.map Prod.fst).Nodup) (m' : μ) :
    (alookup m' (aggregate rs)).getD 0 = sumValues rs m' := by
  unfold aggregate
  rw [alookup_foldl_aggregate rs [] hnd m']
  simp [alookup]

theorem addValue_keys_nodup {acc : List (μ × ℚ)} {m : μ} {v : ℚ}
    (hnd : (acc.map Prod.fst).Nodup) : ((addValue acc m v).map Prod.fst).Nodup := by
  unfold addValue
  cases hl : alookup m acc with
  | some w =>
    have : ((acc.map (fun e => if e.1 = m then (m, w + v) else e)).map Prod.fst)
        = acc.map Prod.fst := by
      rw [List.map_map]
      refine List.map_congr_left ?_
      intro e he
      by_cases hm : e.1 = m
      · simp [hm]
      · simp [hm]
    rw [this]
    exact hnd
  | none =>
    have hm : m ∉ acc.map Prod.fst := alookup_eq_none_iff.mp hl
    rw [List.map_append]
    refine hnd.append (by simp) ?_
    intro a ha hb
    simp at hb
    exact hm (hb ▸ ha)

theorem addValue_nonneg {acc : List (μ × ℚ)} {m : μ} {v : ℚ}
    (hacc : ValuesNonneg acc) (hv : 0 ≤ v) : ValuesNonneg (addValue acc m v) := by
  unfold addValue
  cases hl : alookup m acc with
  | some w =>
    intro e he
    rcases List.mem_map.mp he with ⟨e0, he0, heq⟩
    by_cases hm : e0.1 = m
    · rw [← heq]
      simp only [hm, if_true]
      have hw : 0 ≤ w := hacc (m, w) (alookup_mem hl)
      show 0 ≤ w + v
      linarith
    · rw [← heq]
      simp only [hm, if_false]
      exact hacc e0 he0
  | none =>
    intro e he
    rcases List.mem_append.mp he with he | he
    · exact hacc e he
    · simp at he
      rw [he]
      exact hv

theorem foldl_addValue_keys_nodup (r : List (μ × ℚ)) :
    ∀ acc : List (μ × ℚ), (acc.map Prod.fst).Nodup →
      ((r.foldl (fun a p => addValue a p.1 p.2) acc).map Prod.fst).Nodup := by
  induction r with
  | nil => intro acc h; exact h
  | cons p rest ih =>
    intro acc h
    rw [List.foldl_cons]
    exact ih _ (addValue_keys_nodup h)

theorem foldl_addValue_nonneg (r : List (μ × ℚ)) :
    ∀ acc : List (μ × ℚ), ValuesNonneg r → ValuesNonneg acc →
      ValuesNonneg (r.foldl (fun a p => addValue a p.1 p.2) acc) := by
  induction r with
  | nil => intro acc hr h; exact h
  | cons p rest ih =>
    intro acc hr h
    rw [List.foldl_cons]
    exact ih _ (fun e he => hr e (List.mem_cons_of_mem _ he))
      (addValue_nonneg h (hr p (List.mem_cons_self _ _)))

theorem aggregate_keys_nodup (rs : List (List (μ × ℚ))) :
    ((aggregate rs).map Prod.fst).Nodup := by
  unfold aggregate
  have hgen : ∀ (rs2 : List (List (μ × ℚ))) (acc : List (μ × ℚ)),
      (acc.map Prod.fst).Nodup →
      (((rs2.foldl (fun acc r => r.foldl (fun a p => addValue a p.1 p.2) acc) acc)).map Prod.fst).Nodup := by
    intro rs2
    induction rs2 with
    | nil => intro acc h; exact h
    | cons r rest ih =>
      intro acc h
      rw [List.foldl_cons]
      exact ih _ (foldl_addValue_keys_nodup r acc h)
  exact hgen rs [] (by simp)

theorem aggregate_nonneg (rs : List (List (μ × ℚ)))
    (h : ∀ r ∈ rs, ValuesNonneg r) : ValuesNonneg (aggregate rs) := by
  unfold aggregate
  have hgen : ∀ (rs2 : List (List (μ × ℚ))) (acc : List (μ × ℚ)),
      (∀ r ∈ rs2, ValuesNonneg r) → ValuesNonneg acc →
      ValuesNonneg (rs2.foldl (fun acc r => r.foldl (fun a p => addValue a p.1 p.2) acc) acc) := by
    intro rs2
    induction rs2 with
    | nil => intro acc _ hacc; exact hacc
    | cons r rest ih =>
      intro acc hr hacc
      rw [List.foldl_cons]
      exact ih _ (fun r2 h2 => hr r2 (List.mem_cons_of_mem _ h2))
        (foldl_addValue_nonneg r acc (hr r (List.mem_cons_self _ _)) hacc)
  exact hgen rs [] h (fun e he => absurd he (List.not_mem_nil e))

theorem alookup_of_mem_nodup {β : Type} {l : List (μ × β)}
    (hnd : (l.map Prod.fst).Nodup) {m : μ} {v : β} (h : (m, v) ∈ l) :
    alookup m l = some v := by
  induction l with
  | nil => simp at h
  | cons e es ih =>
    rcases List.mem_cons.mp h with h | h
    · rw [← h]
      simp [alookup]
    · have hnd2 : (es.map Prod.fst).Nodup := (List.nodup_cons.mp (by simpa using hnd)).2
      have hh : e.1 ∉ es.map Prod.fst := (List.nodup_cons.mp (by simpa using hnd)).1
      have hne : ¬ e.1 = m := by
        intro hc
        exact hh (hc ▸ List.mem_map.mpr ⟨(m, v), h, rfl⟩)
      simp [alookup, hne]
      exact ih hnd2 h

theorem aggregate_isSome (rs : List (List (μ × ℚ))) (m' : μ) :
    (alookup m' (aggregate rs)).isSome ↔ ∃ r ∈ rs, (alookup m' r).isSome := by
  unfold aggregate
  have haddv : ∀ (acc : List (μ × ℚ)) (m : μ) (v : ℚ),
      (alookup m' (addValue acc m v)).isSome ↔ m' = m ∨ (alookup m' acc).isSome := by
    intro acc m v
    rw [alookup_addValue]
    by_cases hm : m' = m
    · simp [hm]
    · simp [hm]
  have hfold : ∀ (r : List (μ × ℚ)) (acc : List (μ × ℚ)),
      (alookup m' (r.foldl (fun a p => addValue a p.1 p.2) acc)).isSome ↔
        (alookup m' r).isSome ∨ (alookup m' acc).isSome := by
    intro r
    induction r with
    | nil => intro acc; simp [alookup]
    | cons p rest ih =>
      intro acc
      rw [List.foldl_cons, ih, haddv]
      have hcons : (alookup m' (p :: rest)).isSome ↔ p.1 = m' ∨ (alookup m' rest).isSome := by
        by_cases hp : p.1 = m'
        · simp [alookup, hp]
        · simp [alookup, hp]
      rw [hcons]
      constructor
      · rintro (hr | hr | hr)
        · exact Or.inl (Or.inr hr)
        · exact Or.inl (Or.inl hr.symm)
        · exact Or.inr hr
      · rintro ((hr | hr) | hr)
        · exact Or.inr (Or.inl hr.symm)
        · exact Or.inl hr
        · exact Or.inr (Or.inr hr)
  have hgen : ∀ (rs2 : List (List (μ × ℚ))) (acc : List (μ × ℚ)),
      (alookup m' (rs2.foldl (fun acc r => r.foldl (fun a p => addValue a p.1 p.2) acc) acc)).isSome ↔
        (∃ r ∈ rs2, (alookup m' r).isSome) ∨ (alookup m' acc).isSome := by
    intro rs2
    induction rs2 with
    | nil => intro acc; simp
    | cons r rest ih =>
      intro acc
      rw [List.foldl_cons, ih, hfold]
      constructor
      · rintro (hr | hr | hr)
        · rcases hr with ⟨r2, h2, h3⟩
          exact Or.inl ⟨r2, List.mem_cons_of_mem _ h2, h3⟩
        · exact Or.inl ⟨r, List.mem_cons_self _ _, hr⟩
        · exact Or.inr hr
      · rintro (⟨r2, h2, h3⟩ | hr)
        · rcases List.mem_cons.mp h2 with h2 | h2
          · exact Or.inr (Or.inl (h2 ▸ h3))
          · exact Or.inl ⟨r2, h2, h3⟩
        · exact Or.inr (Or.inr hr)
  rw [hgen rs []]
  simp [alookup]

theorem resolveChildValue_keys {pool : Pool σ μ} :
    ∀ {cs : List (μ × σ)} {vs : List (μ × ℚ)},
      omapM (resolveChildValue pool) cs = some vs → vs.map Prod.fst = cs.map Prod.fst := by
  intro cs
  induction cs with
  | nil =>
    intro vs h
    simp [omapM] at h
    rw [h]
    rfl
  | cons c cs2 ih =>
    intro vs h
    unfold omapM at h
    cases h1 : resolveChildValue pool c with
    | none => rw [h1] at h; simp at h
    | some v =>
      rw [h1] at h
      cases h2 : omapM (resolveChildValue pool) cs2 with
      | none => rw [h2] at h; simp at h
      | some vs2 =>
        rw [h2] at h
        simp at h
        rw [← h]
        have hv : v.1 = c.1 := by
          unfold resolveChildValue at h1
          cases hl : alookup c.2 pool with
          | none => rw [hl] at h1; simp at h1
          | some n =>
            rw [hl] at h1
            simp at h1
            rw [← h1]
        simp [hv, ih h2]

theorem resolveChildValue_nonneg {pool : Pool σ μ} (hst : PoolAll StatsInv pool) :
    ∀ {c : μ × σ} {v : μ × ℚ}, resolveChildValue pool c = some v → 0 ≤ v.2 := by
  intro c v h
  unfold resolveChildValue at h
  cases hl : alookup c.2 pool with
  | none => rw [hl] at h; simp at h
  | some n =>
    rw [hl] at h
    simp at h
    rcases hst (c.2, n) (alookup_mem hl) with ⟨h1, h2, h3⟩
    rw [← h]
    show 0 ≤ n.value
    exact div_nonneg h2 (le_trans zero_le_one h1)

theorem searchWorker_values (g : Game σ μ) (explore : ℚ → ℚ → ℚ) (fuel : Nat)
    (rand : List Nat) (rootState : σ) (iterMax : Nat)
    (hrange : ∀ (st : σ) (p : Nat) (r : ℚ), g.get_result st p = some r → 0 ≤ r ∧ r ≤ 1)
    (hnd : ∀ s : σ, (g.get_moves s).Nodup)
    {values : List (μ × ℚ)} {sz : Nat}
    (h : searchWorker g explore fuel rand rootState iterMax = some (values, sz)) :
    (values.map Prod.fst).Nodup ∧ ValuesNonneg values := by
  unfold searchWorker at h
  cases hp : uctPool g explore fuel rand rootState iterMax [] with
  | none => rw [hp] at h; simp at h
  | some pool2 =>
  rw [hp] at h
  dsimp only at h
  cases hsel : uctSelectChild explore pool2 rootState 0 with
  | none => rw [hsel] at h; simp at h
  | some mc =>
  rw [hsel] at h
  dsimp only at h
  cases hvm : omapM (resolveChildValue pool2) (getNode g pool2 rootState).1.child_nodes with
  | none => rw [hvm] at h; simp at h
  | some values2 =>
  rw [hvm] at h
  simp at h
  have hpm : PoolAll (MovesInv g) pool2 :=
    poolAll_uctPool (fun s => movesInv_init (hnd s))
      (fun n m ck hq hm => movesInv_add_child hq hm)
      (fun st p r n hres hq => movesInv_update hq)
      (fun e he => absurd he (List.not_mem_nil e)) hp
  have hps : PoolAll StatsInv pool2 :=
    poolAll_uctPool (fun s => statsInv_init s)
      (fun n m ck hq hm => statsInv_add_child hq)
      (fun st p r n hres hq => statsInv_update hq (hrange st p r hres).1 (hrange st p r hres).2)
      (fun e he => absurd he (List.not_mem_nil e)) hp
  have hroot : MovesInv g (getNode g pool2 rootState).1 := by
    cases hl : alookup rootState pool2 with
    | some n =>
      have hg : (getNode g pool2 rootState).1 = n := by simp [getNode, hl]
      rw [hg]
      exact hpm (rootState, n) (alookup_mem hl)
    | none =>
      have hg : (getNode g pool2 rootState).1 = TreeNode.init g rootState := by
        simp [getNode, hl]
      rw [hg]
      exact movesInv_init (hnd rootState)
  have hkeys := resolveChildValue_keys hvm
  rw [← h.1]
  constructor
  · rw [hkeys]
    exact hroot.2.1
  · intro e he
    rcases omapM_mem_src hvm e he with ⟨c, hc, hcv⟩
    exact resolveChildValue_nonneg hps hcv

/-- C5: whenever the root-parallel engine returns a move — each of the P
workers having run an independent sequential search over its own fresh
tree for iterMax / P iterations, P being the number of workers (oracle
streams) — the returned move was explored by some worker, and it
maximizes over all moves the sum over workers of that worker's
root-child value, a worker that never explored a move contributing 0 to
the sum. -/
theorem root_parallel_argmax (g : Game σ μ) (explore : ℚ → ℚ → ℚ) (fuel : Nat)
    (rands : List (List Nat)) (rootState : σ) (iterMax : Nat) (m : μ)
    (results : List (List (μ × ℚ) × Nat))
    (hrange : ∀ (st : σ) (p : Nat) (r : ℚ), g.get_result st p = some r → 0 ≤ r ∧ r ≤ 1)
    (hnd : ∀ s : σ, (g.get_moves s).Nodup)
    (hres : omapM (fun rand => searchWorker g explore fuel rand rootState
      (iterMax / rands.length)) rands = some results)
    (h : rootUct g explore fuel rands rootState iterMax = some m) :
    (∃ w ∈ results, (alookup m w.1).isSome) ∧
    ∀ m' : μ, sumValues (results.map Prod.fst) m' ≤ sumValues (results.map Prod.fst) m := by
  unfold rootUct at h
  rw [hres] at h
  dsimp only at h
  have hw : ∀ r ∈ results.map Prod.fst, (r.map Prod.fst).Nodup ∧ ValuesNonneg r := by
    intro r hr
    rcases List.mem_map.mp hr with ⟨w, hwmem, hweq⟩
    rcases omapM_mem_src hres w hwmem with ⟨rand, hrand, hwork⟩
    rcases w with ⟨vals, sz⟩
    have hval := searchWorker_values g explore fuel rand rootState
      (iterMax / rands.length) hrange hnd hwork
    rw [← hweq]
    exact hval
  have hndr : ∀ r ∈ results.map Prod.fst, (r.map Prod.fst).Nodup := fun r hr => (hw r hr).1
  have hnn : ∀ r ∈ results.map Prod.fst, ValuesNonneg r := fun r hr => (hw r hr).2
  cases haggl : aggregate (results.map Prod.fst) with
  | nil => rw [haggl] at h; simp at h
  | cons v vs =>
  rw [haggl] at h
  simp at h
  have hbestmem : selectMax (fun p : μ × ℚ => p.2) v vs ∈ v :: vs := selectMax_mem _ vs v
  have hbestmem2 : selectMax (fun p : μ × ℚ => p.2) v vs ∈ aggregate (results.map Prod.fst) := by
    rw [haggl]
    exact hbestmem
  have haggnd := aggregate_keys_nodup (results.map Prod.fst)
  have hbestpair : ((selectMax (fun p : μ × ℚ => p.2) v vs).1,
      (selectMax (fun p : μ × ℚ => p.2) v vs).2) ∈ aggregate (results.map Prod.fst) := by
    rw [Prod.mk.eta]
    exact hbestmem2
  have hlookbest : alookup (selectMax (fun p : μ × ℚ => p.2) v vs).1
      (aggregate (results.map Prod.fst)) = some (selectMax (fun p : μ × ℚ => p.2) v vs).2 :=
    alookup_of_mem_nodup haggnd hbestpair
  have hSbest : (selectMax (fun p : μ × ℚ => p.2) v vs).2
      = sumValues (results.map Prod.fst) (selectMax (fun p : μ × ℚ => p.2) v vs).1 := by
    have hh := alookup_aggregate (results.map Prod.fst) hndr
      (selectMax (fun p : μ × ℚ => p.2) v vs).1
    rw [hlookbest] at hh
    simpa using hh
  constructor
  · have hsome : (alookup m (aggregate (results.map Prod.fst))).isSome := by
      rw [← h, hlookbest]
      rfl
    rcases (aggregate_isSome _ m).mp hsome with ⟨r, hr, hrs⟩
    rcases List.mem_map.mp hr with ⟨w, hw2, hweq⟩
    refine ⟨w, hw2, ?_⟩
    rw [hweq]
    exact hrs
  · intro m'
    have hSm : sumValues (results.map Prod.fst) m = (selectMax (fun p : μ × ℚ => p.2) v vs).2 := by
      rw [← h]
      exact hSbest.symm
    cases hm' : alookup m' (aggregate (results.map Prod.fst)) with
    | some v' =>
      have hmem : (m', v') ∈ aggregate (results.map Prod.fst) := alookup_mem hm'
      have hmem2 : (m', v') ∈ v :: vs := by
        rw [← haggl]
        exact hmem
      have hle := le_selectMax (fun p : μ × ℚ => p.2) vs v (m', v') hmem2
      have hS2 : sumValues (results.map Prod.fst) m' = v' := by
        have hh := alookup_aggregate (results.map Prod.fst) hndr m'
        rw [hm'] at hh
        simpa using hh.symm
      rw [hS2, hSm]
      exact hle
    | none =>
      have hS2 : sumValues (results.map Prod.fst) m' = 0 := by
        have hh := alookup_aggregate (results.map Prod.fst) hndr m'
        rw [hm'] at hh
        simpa using hh.symm
      have h0 : 0 ≤ (selectMax (fun p : μ × ℚ => p.2) v vs).2 :=
        aggregate_nonneg (results.map Prod.fst) hnn _ hbestmem2
      rw [hS2, hSm]
      exact h0

/-- Concrete worker outputs of the root-parallel witness run: two
workers on Nim with one chip, one iteration each. -/
def workerResults : List (List (ℤ × ℚ) × Nat) :=
  (omapM (fun rand => searchWorker nimGame zeroExplore 6 rand (NimState.mk 1 2)
    (2 / ([[0], [0]] : List (List Nat)).length)) [[0], [0]]).getD []

/-- Witness for C5 at the concrete root-parallel Nim run, which returns
the move 1. -/
theorem root_parallel_argmax_witness :
    (∃ w ∈ workerResults, (alookup (1 : ℤ) w.1).isSome) ∧
    ∀ m' : ℤ, sumValues (workerResults.map Prod.fst) m'
      ≤ sumValues (workerResults.map Prod.fst) 1 :=
  root_parallel_argmax nimGame zeroExplore 6 [[0], [0]] (NimState.mk 1 2) 2 1 workerResults
    nim_result_range nim_moves_nodup (by decide) (by decide)

end UCTSpec
